import Mathlib

/-!
Verification of the tool resolution and provisioning engine of the
pandoc-desktop repository (`src-tauri/src/manager.rs`, `pandoc.rs`,
`utils.rs`, `types.rs`).

The Rust code is shallowly embedded: pure string processing becomes Lean
functions on `String`/`List Char`; effectful operations (HTTP, filesystem,
subprocess probes) are modelled by explicit environment records whose fields
are the results the environment may return, and the Rust control flow is
reproduced over those records.  Machine integers in the modelled fragments
never overflow, so `Nat` is used directly.
-/

namespace PandocDesktop

/-- Whitespace test modelling Rust `char::is_whitespace` on the ASCII
whitespace characters that occur in the modelled inputs. -/
def isWs (c : Char) : Bool := c.isWhitespace

/-- Model of Rust `str::trim`: drop leading and trailing whitespace. -/
def trimChars (l : List Char) : List Char :=
  ((l.dropWhile isWs).reverse.dropWhile isWs).reverse

/-- Model of Rust `str::split_whitespace`: split on whitespace and drop the
empty chunks produced by consecutive or leading/trailing whitespace. -/
def splitWs (l : List Char) : List (List Char) :=
  (l.splitOnP isWs).filter (fun t => t ≠ [])

/-- Model of Rust `str::contains` on character lists: `pat` occurs as a
contiguous substring of the second argument. -/
def containsSub (pat : List Char) : List Char → Bool
  | [] => pat.isEmpty
  | c :: rest => pat.isPrefixOf (c :: rest) || containsSub pat rest

/-- Model of Rust `str::contains("pandoc")` on one token. -/
def containsPandoc (t : List Char) : Bool := containsSub "pandoc".toList t

/-- Fuel-driven worker for `removeOcc`.  Each step consumes one unit of fuel
and at least one input character, so fuel `l.length` never runs out. -/
def removeOccFuel (pat : List Char) : Nat → List Char → List Char
  | _, [] => []
  | 0, l => l
  | fuel + 1, c :: rest =>
    if pat ≠ [] ∧ pat.isPrefixOf (c :: rest) then
      removeOccFuel pat fuel ((c :: rest).drop pat.length)
    else
      c :: removeOccFuel pat fuel rest

/-- Model of Rust `str::replace(pat, "")` for a non-empty pattern: remove every
leftmost non-overlapping occurrence of `pat`.  Both call sites in
`normalize_version` (manager.rs:308-310) pass the non-empty patterns
`"pandoc.exe"` and `"pandoc"`; for an empty pattern the input is returned
unchanged to keep the function total. -/
def removeOcc (pat l : List Char) : List Char := removeOccFuel pat l.length l

/-- One iteration of the token loop of `normalize_version` (manager.rs:280-305):
skip a token containing `"pandoc"`, strip leading `v`s, and if the remainder
starts with an ASCII digit (Rust `chars().next().map_or(false, ...)`) return
its maximal leading run of digits and dots provided that run is non-empty and
contains a digit. -/
def versionFromToken (tok : List Char) : Option (List Char) :=
  if containsPandoc tok then none
  else if (((tok.dropWhile (fun c => c == 'v')).head?.map Char.isDigit).getD false) then
    if !((tok.dropWhile (fun c => c == 'v')).takeWhile
          (fun ch => ch.isDigit || ch == '.')).isEmpty
        && ((tok.dropWhile (fun c => c == 'v')).takeWhile
          (fun ch => ch.isDigit || ch == '.')).any (fun ch => ch.isDigit) then
      some ((tok.dropWhile (fun c => c == 'v')).takeWhile
        (fun ch => ch.isDigit || ch == '.'))
    else none
  else none

/-- The token loop of `normalize_version`: the first token that yields a
version wins. -/
def firstVersion : List (List Char) → Option (List Char)
  | [] => none
  | t :: ts =>
    match versionFromToken t with
    | some v => some v
    | none => firstVersion ts

/-- Model of `normalize_version` (manager.rs:276-321). -/
def normalizeVersion (s : String) : String :=
  let text := trimChars s.toList
  match firstVersion (splitWs text) with
  | some v => String.mk v
  | none =>
    let cleaned :=
      trimChars ((trimChars (removeOcc "pandoc".toList
        (removeOcc "pandoc.exe".toList text))).dropWhile (fun c => c == 'v'))
    if cleaned ≠ [] then String.mk cleaned else String.mk text

/-- Model of `extract_clean_version` (manager.rs:751-759): strip leading `v`s,
trim, take the first whitespace-separated token, falling back to the original
string when there is none. -/
def extractCleanVersion (s : String) : String :=
  match splitWs (trimChars (s.toList.dropWhile (fun c => c == 'v'))) with
  | [] => s
  | t :: _ => String.mk t

/-- Model of `VersionInfo` (types.rs:56-62). -/
structure VersionInfo where
  current : Option String
  latest : Option String
  available_versions : List String
  is_update_available : Bool
deriving DecidableEq, Repr

/-- Pure core of `get_version_info` (manager.rs:482-505), after the two
registry fetches have produced the latest tag and the available-version
list. -/
def mkVersionInfo (currentVersion : Option String) (latestVersion : String)
    (availableVersions : List String) : VersionInfo :=
  let normalizedCurrent := currentVersion.map normalizeVersion
  let normalizedLatest := normalizeVersion latestVersion
  let isUpdate :=
    match normalizedCurrent with
    | some c => c != normalizedLatest
    | none => true
  { current := currentVersion
    latest := some latestVersion
    available_versions := availableVersions
    is_update_available := isUpdate }

/-- Model of `get_pandoc_asset_patterns_for_platform` (manager.rs:945-959);
the Rust `match` arms are translated into an if-chain in source order. -/
def getPandocAssetPatternsForPlatform (targetOs targetArch : String) : List String :=
  if targetOs = "windows" ∧ targetArch = "x86_64" then ["windows-x86_64"]
  else if targetOs = "macos" ∧ targetArch = "aarch64" then ["arm64-macOS"]
  else if targetOs = "macos" ∧ targetArch = "x86_64" then ["x86_64-macOS"]
  else if targetOs = "linux" ∧ targetArch = "aarch64" then ["linux-arm64"]
  else if targetOs = "linux" ∧ targetArch = "x86_64" then ["linux-amd64"]
  else if targetOs = "windows" then ["windows-x86_64"]
  else if targetOs = "macos" then ["macOS"]
  else if targetOs = "linux" then ["linux-amd64"]
  else ["linux-amd64"]

/-! ### Helper lemmas about version normalization -/

theorem versionFromToken_some_ne_nil {tok v : List Char}
    (h : versionFromToken tok = some v) : v ≠ [] := by
  unfold versionFromToken at h
  split_ifs at h with h1 h2 h3
  cases h
  intro hnil
  rw [hnil] at h3
  simp at h3

theorem firstVersion_some_ne_nil {ts : List (List Char)} {v : List Char}
    (h : firstVersion ts = some v) : v ≠ [] := by
  induction ts with
  | nil => exact absurd h (by simp [firstVersion])
  | cons t ts ih =>
    unfold firstVersion at h
    revert h
    cases hv : versionFromToken t with
    | some w =>
      intro h
      cases h
      exact versionFromToken_some_ne_nil hv
    | none =>
      intro h
      exact ih h

theorem string_mk_ne_empty {l : List Char} (h : l ≠ []) : String.mk l ≠ "" := by
  intro he
  apply h
  have := congrArg String.data he
  simpa using this

/-! ### Claim C4 -/

/-- C4 counterexample: the input `" "` is a non-empty string, yet
`normalize_version` returns the empty string for it — the trimmed text is
empty, so the token loop finds nothing, the fallback cleanup is empty, and the
final fallback returns the (empty) trimmed text. -/
theorem c4_normalize_nonempty_counterexample :
    normalizeVersion " " = "" ∧ " " ≠ "" := by
  constructor
  · decide
  · decide

/-- C4 amended: `normalize_version` returns a non-empty string for every input
that is still non-empty after trimming whitespace (a whitespace-only non-empty
input is trimmed to nothing and yields the empty string); the documented
examples normalize to `"3.7.0.2"` exactly. -/
theorem c4_normalize_nonempty_amended :
    (∀ s : String, trimChars s.toList ≠ [] → normalizeVersion s ≠ "") ∧
    normalizeVersion "pandoc.exe 3.7.0.2" = "3.7.0.2" ∧
    normalizeVersion "pandoc 3.7.0.2" = "3.7.0.2" ∧
    normalizeVersion "v3.7.0.2" = "3.7.0.2" ∧
    normalizeVersion "3.7.0.2" = "3.7.0.2" := by
  refine ⟨?_, by decide, by decide, by decide, by decide⟩
  intro s h
  rcases hf : firstVersion (splitWs (trimChars s.toList)) with _ | v
  · simp only [normalizeVersion, hf]
    split_ifs with hc
    · exact string_mk_ne_empty hc
    · exact string_mk_ne_empty h
  · simp only [normalizeVersion, hf]
    exact string_mk_ne_empty (firstVersion_some_ne_nil hf)

/-- Witness for the amended C4 theorem at a concrete input. -/
theorem c4_normalize_nonempty_amended_witness :
    trimChars ("pandoc 3.7.0.2".toList) ≠ [] ∧
    normalizeVersion "pandoc 3.7.0.2" ≠ "" :=
  ⟨by decide, c4_normalize_nonempty_amended.1 "pandoc 3.7.0.2" (by decide)⟩

/-! ### Claim C5 -/

/-- C5: the update-availability check of `get_version_info` returns `true` iff
the normalized current version differs from the normalized latest tag as a
plain string; in particular `"3.6"` against `"3.7.0.2"` yields `true` and equal
normalized strings yield `false`. -/
theorem c5_update_check_string_inequality :
    (∀ (currentVersion latestVersion : String) (availableVersions : List String),
      ((mkVersionInfo (some currentVersion) latestVersion
          availableVersions).is_update_available = true ↔
        normalizeVersion currentVersion ≠ normalizeVersion latestVersion)) ∧
    (mkVersionInfo (some "3.6") "3.7.0.2" []).is_update_available = true ∧
    (mkVersionInfo (some "3.7.0.2") "3.7.0.2" []).is_update_available = false := by
  refine ⟨?_, by decide, by decide⟩
  intro c l a
  simp [mkVersionInfo, bne_iff_ne]

/-! ### Claim C6 -/

/-- C6 counterexample: `("windows", "arm64")` is not one of the five explicitly
mapped (os, arch) pairs, yet the matcher returns the Windows fallback pattern
`["windows-x86_64"]`, not the Linux x86_64 default pattern. -/
theorem c6_platform_matcher_counterexample :
    getPandocAssetPatternsForPlatform "windows" "arm64" = ["windows-x86_64"] ∧
    ["windows-x86_64"] ≠ ["linux-amd64"] := by
  constructor
  · decide
  · decide

/-- C6 amended: the matcher always returns a non-empty list; a pair whose OS is
not `windows`/`macos`/`linux` falls back to the Linux x86_64 default pattern,
while an unmapped arch under a known OS falls back to that OS's documented
fallback pattern (`windows-x86_64`, `macOS`, `linux-amd64`); and for
`("linux", "x86_64")` the first element contains `"linux-amd64"`. -/
theorem c6_platform_matcher_amended :
    (∀ targetOs targetArch, getPandocAssetPatternsForPlatform targetOs targetArch ≠ []) ∧
    (∀ targetOs targetArch, targetOs ≠ "windows" → targetOs ≠ "macos" →
      targetOs ≠ "linux" →
      getPandocAssetPatternsForPlatform targetOs targetArch = ["linux-amd64"]) ∧
    (∀ targetArch, getPandocAssetPatternsForPlatform "windows" targetArch =
      ["windows-x86_64"]) ∧
    (∀ targetArch, targetArch ≠ "aarch64" → targetArch ≠ "x86_64" →
      getPandocAssetPatternsForPlatform "macos" targetArch = ["macOS"]) ∧
    (∀ targetArch, targetArch ≠ "aarch64" → targetArch ≠ "x86_64" →
      getPandocAssetPatternsForPlatform "linux" targetArch = ["linux-amd64"]) ∧
    (containsSub "linux-amd64".toList
      (getPandocAssetPatternsForPlatform "linux" "x86_64").headI.toList = true) := by
  refine ⟨?_, ?_, ?_, ?_, ?_, by decide⟩
  · intro targetOs targetArch
    unfold getPandocAssetPatternsForPlatform
    split_ifs <;> simp
  · intro targetOs targetArch h1 h2 h3
    unfold getPandocAssetPatternsForPlatform
    split_ifs <;> simp_all
  · intro targetArch
    unfold getPandocAssetPatternsForPlatform
    split_ifs <;> simp_all
  · intro targetArch h1 h2
    unfold getPandocAssetPatternsForPlatform
    split_ifs <;> simp_all
  · intro targetArch h1 h2
    unfold getPandocAssetPatternsForPlatform
    split_ifs <;> simp_all

/-- Witness for the amended C6 theorem at concrete inputs. -/
theorem c6_platform_matcher_amended_witness :
    getPandocAssetPatternsForPlatform "linux" "x86_64" ≠ [] ∧
    getPandocAssetPatternsForPlatform "freebsd" "riscv" = ["linux-amd64"] ∧
    getPandocAssetPatternsForPlatform "macos" "powerpc" = ["macOS"] :=
  ⟨c6_platform_matcher_amended.1 "linux" "x86_64",
   c6_platform_matcher_amended.2.1 "freebsd" "riscv" (by decide) (by decide) (by decide),
   c6_platform_matcher_amended.2.2.2.1 "powerpc" (by decide) (by decide)⟩

/-! ### Claim C10 -/

/-- C10: when no current version is supplied, `get_version_info` reports an
update as available regardless of the latest tag, while still returning the
latest tag and the available-version list. -/
theorem c10_none_current_reports_update :
    ∀ (latestVersion : String) (availableVersions : List String),
      (mkVersionInfo none latestVersion availableVersions).is_update_available = true ∧
      (mkVersionInfo none latestVersion availableVersions).latest = some latestVersion ∧
      (mkVersionInfo none latestVersion availableVersions).available_versions =
        availableVersions ∧
      (mkVersionInfo none latestVersion availableVersions).current = none := by
  intro l a
  exact ⟨rfl, rfl, rfl, rfl⟩

/-! ### Claim C3: archive format dispatch -/

/-- Suffix test on strings, used only to state claims about names "ending in"
an extension. -/
def endsWithStr (s suffix : String) : Bool :=
  suffix.toList.reverse.isPrefixOf s.toList.reverse

/-- Model of Rust `Path::file_name` for the paths relevant here (paths without
trailing separators or `..` components): the part after the last `/`,
`unwrap_or("")` as at the call sites in manager.rs:993-996 and 1004-1007. -/
def rustFileName (p : String) : String :=
  String.mk ((p.toList.reverse.takeWhile (fun c => c != '/')).reverse)

/-- Model of Rust `Path::extension`: the portion of the file name after the
last `.`; `none` when there is no `.` or when the only `.` is the leading
character of the name. -/
def rustExtension (name : String) : Option String :=
  if name.toList.contains '.' then
    if name.toList.length -
        (name.toList.reverse.takeWhile (fun c => c != '.')).length - 1 > 0 then
      some (String.mk ((name.toList.reverse.takeWhile (fun c => c != '.')).reverse))
    else none
  else none

/-- The extractor chosen by `extract_archive_unified` (manager.rs:976-1016). -/
inductive ExtractRoute where
  | zip
  | targz
  | tarxz
  | unsupported (msg : String)
deriving DecidableEq, Repr

/-- Pure dispatch of `extract_archive_unified` (manager.rs:984-1015): match on
the file extension (`unwrap_or("")`), with the `gz`/`xz` arms further
requiring `".tar."` to occur in the file name. -/
def archiveRoute (archivePath : String) : ExtractRoute :=
  if (rustExtension (rustFileName archivePath)).getD "" = "zip" then .zip
  else if (rustExtension (rustFileName archivePath)).getD "" = "gz" then
    if containsSub ".tar.".toList (rustFileName archivePath).toList then .targz
    else .unsupported ("Unsupported .gz format: " ++ rustFileName archivePath)
  else if (rustExtension (rustFileName archivePath)).getD "" = "xz" then
    if containsSub ".tar.".toList (rustFileName archivePath).toList then .tarxz
    else .unsupported ("Unsupported .xz format: " ++ rustFileName archivePath)
  else
    .unsupported ("Unsupported archive format: " ++
      (rustExtension (rustFileName archivePath)).getD "")

/-- Filesystem effects used by `extract_archive_unified`: the result of
creating the extraction directory, and the results of the three extractors. -/
structure ExtractEnv where
  createDirAll : String → Except String Unit
  extractZip : String → String → Except String String
  extractTarGz : String → String → Except String String
  extractTarXz : String → String → Except String String

/-- Model of `extract_archive_unified` (manager.rs:976-1016): create the
extraction directory first, then dispatch on the extension. -/
def extractArchiveUnified (env : ExtractEnv) (archivePath extractDir : String) :
    Except String String :=
  match env.createDirAll extractDir with
  | .error e => .error ("Failed to create extract directory: " ++ e)
  | .ok () =>
    match archiveRoute archivePath with
    | .zip => env.extractZip archivePath extractDir
    | .targz => env.extractTarGz archivePath extractDir
    | .tarxz => env.extractTarXz archivePath extractDir
    | .unsupported msg => .error msg

/-- C3 counterexample: `"pandoc.tar.old.gz"` ends in none of `.zip`,
`.tar.gz`, `.tar.xz`, yet the dispatcher routes it to the gzip+tar extractor
rather than yielding an unsupported-format error, because its final extension
is `gz` and its file name contains `".tar."`. -/
theorem c3_dispatch_counterexample :
    endsWithStr "pandoc.tar.old.gz" ".zip" = false ∧
    endsWithStr "pandoc.tar.old.gz" ".tar.gz" = false ∧
    endsWithStr "pandoc.tar.old.gz" ".tar.xz" = false ∧
    archiveRoute "pandoc.tar.old.gz" = .targz := by
  refine ⟨by decide, by decide, by decide, by decide⟩

/-- C3 amended: dispatch is on the final extension of the archive path's file
name — extension `zip` routes to the zip extractor; extension `gz` (resp. `xz`)
routes to the gzip+tar (resp. XZ+tar) extractor when the file name contains
`".tar."` and to an unsupported-`.gz`/`.xz` error otherwise; every other
extension yields an unsupported-format error; the extraction directory is
created before dispatch, and its creation failure preempts dispatch. -/
theorem c3_dispatch_amended :
    ∀ (env : ExtractEnv) (archivePath extractDir : String),
      (∀ e, env.createDirAll extractDir = .error e →
        extractArchiveUnified env archivePath extractDir =
          .error ("Failed to create extract directory: " ++ e)) ∧
      (env.createDirAll extractDir = .ok () →
        ((rustExtension (rustFileName archivePath)).getD "" = "zip" →
          extractArchiveUnified env archivePath extractDir =
            env.extractZip archivePath extractDir) ∧
        ((rustExtension (rustFileName archivePath)).getD "" = "gz" →
          containsSub ".tar.".toList (rustFileName archivePath).toList = true →
          extractArchiveUnified env archivePath extractDir =
            env.extractTarGz archivePath extractDir) ∧
        ((rustExtension (rustFileName archivePath)).getD "" = "gz" →
          containsSub ".tar.".toList (rustFileName archivePath).toList = false →
          extractArchiveUnified env archivePath extractDir =
            .error ("Unsupported .gz format: " ++ rustFileName archivePath)) ∧
        ((rustExtension (rustFileName archivePath)).getD "" = "xz" →
          containsSub ".tar.".toList (rustFileName archivePath).toList = true →
          extractArchiveUnified env archivePath extractDir =
            env.extractTarXz archivePath extractDir) ∧
        ((rustExtension (rustFileName archivePath)).getD "" = "xz" →
          containsSub ".tar.".toList (rustFileName archivePath).toList = false →
          extractArchiveUnified env archivePath extractDir =
            .error ("Unsupported .xz format: " ++ rustFileName archivePath)) ∧
        ((rustExtension (rustFileName archivePath)).getD "" ≠ "zip" →
          (rustExtension (rustFileName archivePath)).getD "" ≠ "gz" →
          (rustExtension (rustFileName archivePath)).getD "" ≠ "xz" →
          extractArchiveUnified env archivePath extractDir =
            .error ("Unsupported archive format: " ++
              (rustExtension (rustFileName archivePath)).getD ""))) := by
  intro env archivePath extractDir
  constructor
  · intro e he
    simp [extractArchiveUnified, he]
  · intro hok
    refine ⟨?_, ?_, ?_, ?_, ?_, ?_⟩
    · intro hz
      simp [extractArchiveUnified, hok, archiveRoute, hz]
    · intro hg ht
      simp at ht
      simp [extractArchiveUnified, hok, archiveRoute, hg, ht]
    · intro hg ht
      simp at ht
      simp [extractArchiveUnified, hok, archiveRoute, hg, ht]
    · intro hx ht
      simp at ht
      simp [extractArchiveUnified, hok, archiveRoute, hx, ht]
    · intro hx ht
      simp at ht
      simp [extractArchiveUnified, hok, archiveRoute, hx, ht]
    · intro h1 h2 h3
      simp [extractArchiveUnified, hok, archiveRoute, h1, h2, h3]

/-- A trivially succeeding extraction environment used by the C3 witness. -/
def c3WitnessEnv : ExtractEnv where
  createDirAll := fun _ => .ok ()
  extractZip := fun _ d => .ok d
  extractTarGz := fun _ d => .ok d
  extractTarXz := fun _ d => .ok d

/-- Witness for the amended C3 theorem at concrete archive names. -/
theorem c3_dispatch_amended_witness :
    extractArchiveUnified c3WitnessEnv "pandoc-3.7-windows-x86_64.zip" "out" =
      c3WitnessEnv.extractZip "pandoc-3.7-windows-x86_64.zip" "out" ∧
    extractArchiveUnified c3WitnessEnv "pandoc-3.7-linux-amd64.tar.gz" "out" =
      c3WitnessEnv.extractTarGz "pandoc-3.7-linux-amd64.tar.gz" "out" ∧
    extractArchiveUnified c3WitnessEnv "archive.rar" "out" =
      .error ("Unsupported archive format: " ++
        (rustExtension (rustFileName "archive.rar")).getD "") :=
  ⟨((c3_dispatch_amended c3WitnessEnv "pandoc-3.7-windows-x86_64.zip" "out").2
      rfl).1 (by decide),
   ((c3_dispatch_amended c3WitnessEnv "pandoc-3.7-linux-amd64.tar.gz" "out").2
      rfl).2.1 (by decide) (by decide),
   ((c3_dispatch_amended c3WitnessEnv "archive.rar" "out").2
      rfl).2.2.2.2.2 (by decide) (by decide) (by decide)⟩

/-! ### Claim C7: manager validation invariant -/

/-- Model of `PandocInfo` (types.rs:3-12). -/
structure PandocInfo where
  version : String
  path : String
  is_working : Bool
  supported_input_formats : List String
  supported_output_formats : List String
  detected_paths : List String
  search_paths : List String
deriving DecidableEq, Repr

/-- Model of `PandocSource` (manager.rs:47-55). -/
inductive PandocSource where
  | Custom (path : String)
  | Managed
  | System (path : String)
deriving DecidableEq, Repr

/-- Model of `PandocManager` (manager.rs:58-63). -/
structure PandocManager where
  source : PandocSource
  info : Option PandocInfo
  available : Bool
deriving DecidableEq, Repr

/-- Model of `PandocManager::new` (manager.rs:67-73). -/
def PandocManager.new (source : PandocSource) : PandocManager :=
  { source := source, info := none, available := false }

/-- Result of spawning `<path> --version`: exit success and the stdout text
when it decodes as UTF-8 (`none` models invalid UTF-8). -/
structure ProbeOutput where
  success : Bool
  stdoutUtf8 : Option String

/-- Environment of the manager layer: the managed path resolved by
`get_managed_pandoc_path` (manager.rs:119-143), filesystem and subprocess
probe outcomes, the `get_supported_formats` outcome, and the ordered system
search paths from `utils::get_search_paths`.  A `.error` from
`runVersionProbe` models a spawn failure. -/
structure ManagerEnv where
  managedPandocPath : Option String
  pathExists : String → Bool
  isExecutable : String → Bool
  runVersionProbe : String → Except String ProbeOutput
  supportedFormats : String → Except String (List String × List String)
  searchPaths : List String

/-- Single trailing carriage-return strip, as done by Rust `str::lines`. -/
def stripCr (l : List Char) : List Char :=
  match l.reverse with
  | '\r' :: rest => rest.reverse
  | _ => l

/-- Model of Rust `str::lines().next()`: the first line, `none` for the empty
string. -/
def firstLine (s : String) : Option (List Char) :=
  if s.toList = [] then none
  else some (stripCr (s.toList.takeWhile (fun c => c != '\n')))

/-- One iteration of the token loop of `extract_version_from_output`
(manager.rs:238-260): unlike `normalize_version` it does not strip a leading
`v`, and its guard rejects the bare run `"."`. -/
def versionTokenPlain (tok : List Char) : Option (List Char) :=
  if containsPandoc tok then none
  else if ((tok.head?.map Char.isDigit).getD false) then
    if !(tok.takeWhile (fun ch => ch.isDigit || ch == '.')).isEmpty
        && tok.takeWhile (fun ch => ch.isDigit || ch == '.') != ['.'] then
      some (tok.takeWhile (fun ch => ch.isDigit || ch == '.'))
    else none
  else none

/-- The token loop of `extract_version_from_output`. -/
def firstVersionPlain : List (List Char) → Option (List Char)
  | [] => none
  | t :: ts =>
    match versionTokenPlain t with
    | some v => some v
    | none => firstVersionPlain ts

/-- Model of `extract_version_from_output` (manager.rs:231-268). -/
def extractVersionFromOutput (output : String) : String :=
  match firstVersionPlain (splitWs (trimChars ((firstLine output).getD "Unknown".toList))) with
  | some v => String.mk v
  | none =>
    String.mk (trimChars (removeOcc "pandoc".toList
      (removeOcc "pandoc.exe".toList ((firstLine output).getD "Unknown".toList))))

/-- `get_supported_formats` result with the fallback of manager.rs:206-217. -/
def formatsOrFallback (env : ManagerEnv) (path : String) :
    List String × List String :=
  match env.supportedFormats path with
  | .ok p => p
  | .error _ => (["markdown", "html", "docx"], ["html", "pdf", "docx"])

/-- Model of `validate_pandoc_executable` (manager.rs:185-228). -/
def validatePandocExecutable (env : ManagerEnv) (path : String) :
    Except String PandocInfo :=
  if !env.pathExists path then .error "Pandoc executable not found"
  else
    match env.runVersionProbe path with
    | .error e => .error ("Failed to execute pandoc: " ++ e)
    | .ok out =>
      if !out.success then .error "Pandoc failed to execute"
      else
        match out.stdoutUtf8 with
        | none => .error "Failed to read pandoc version output"
        | some versionText =>
          .ok { version := extractVersionFromOutput versionText
                path := path
                is_working := true
                supported_input_formats := (formatsOrFallback env path).1
                supported_output_formats := (formatsOrFallback env path).2
                detected_paths := []
                search_paths := [] }

/-- Model of `PandocManager::get_executable_path` (manager.rs:76-82). -/
def PandocManager.getExecutablePath (m : PandocManager) (env : ManagerEnv) :
    Option String :=
  match m.source with
  | .Custom path => some path
  | .Managed => env.managedPandocPath
  | .System path => some path

/-- Model of `PandocManager::validate` (manager.rs:85-104): returns the
updated manager together with the `Result`. -/
def PandocManager.validate (m : PandocManager) (env : ManagerEnv) :
    PandocManager × Except String Unit :=
  match m.getExecutablePath env with
  | some path =>
    match validatePandocExecutable env path with
    | .ok info => ({ m with info := some info, available := true }, .ok ())
    | .error e => ({ m with info := none, available := false }, .error e)
  | none =>
    ({ m with info := none, available := false },
      .error "Failed to get executable path")

theorem validatePandocExecutable_ok_is_working {env : ManagerEnv}
    {path : String} {info : PandocInfo}
    (h : validatePandocExecutable env path = .ok info) :
    info.is_working = true := by
  unfold validatePandocExecutable at h
  rcases hpe : env.pathExists path with _ | _ <;> simp only [hpe] at h
  · simp at h
  · rcases hrv : env.runVersionProbe path with e | out <;> simp only [hrv] at h
    · simp at h
    · rcases hsu : out.success with _ | _ <;> simp only [hsu] at h
      · simp at h
      · rcases hso : out.stdoutUtf8 with _ | t <;> simp only [hso] at h
        · simp at h
        · simp at h
          subst h
          rfl

/-- C7: a freshly constructed manager is unavailable with no info, and after
any `validate` transition the manager either is fully populated — `available`
true, `info` present and marked working — or fully cleared — `available` false
and `info` absent; the source is never touched.  In particular
`available = true` always implies a present, working `info`. -/
theorem c7_validate_invariant :
    ∀ (source : PandocSource) (env : ManagerEnv) (m : PandocManager),
      ((PandocManager.new source).available = false ∧
        (PandocManager.new source).info = none) ∧
      (((m.validate env).1.available = true ∧
          ∃ i, (m.validate env).1.info = some i ∧ i.is_working = true) ∨
        ((m.validate env).1.available = false ∧ (m.validate env).1.info = none)) ∧
      (m.validate env).1.source = m.source := by
  intro source env m
  refine ⟨⟨rfl, rfl⟩, ?_, ?_⟩
  · rcases hp : m.getExecutablePath env with _ | path
    · unfold PandocManager.validate
      simp [hp]
    · rcases hv : validatePandocExecutable env path with e | info
      · unfold PandocManager.validate
        simp [hp, hv]
      · unfold PandocManager.validate
        simp [hp, hv, validatePandocExecutable_ok_is_working hv]
  · rcases hp : m.getExecutablePath env with _ | path
    · unfold PandocManager.validate
      simp [hp]
    · rcases hv : validatePandocExecutable env path with e | info
      · unfold PandocManager.validate
        simp [hp, hv]
      · unfold PandocManager.validate
        simp [hp, hv]

/-! ### Claim C1: resolution priority -/

/-- Source preservation of `validate`: the manager's source is never
touched. -/
theorem PandocManager.validate_fst_source (m : PandocManager) (env : ManagerEnv) :
    ((m.validate env).1).source = m.source := by
  unfold PandocManager.validate
  rcases hp : m.getExecutablePath env with _ | path
  · simp [hp]
  · rcases hv : validatePandocExecutable env path with e | info <;> simp [hp, hv]

/-- Re-validating a successfully validated manager succeeds again with the
same manager: `validate` depends only on the source and the environment, and
on success it writes exactly the fields it computed. -/
theorem PandocManager.validate_ok_fixpoint {m m' : PandocManager}
    {env : ManagerEnv} (h : m.validate env = (m', Except.ok ())) :
    m'.validate env = (m', Except.ok ()) := by
  unfold PandocManager.validate at h
  rcases hp : m.getExecutablePath env with _ | path
  · simp only [hp] at h
    simp at h
  · rcases hv : validatePandocExecutable env path with e | info
    · simp only [hp, hv] at h
      simp at h
    · simp only [hp, hv] at h
      have hm : m' = { m with info := some info, available := true } := by
        have := congrArg Prod.fst h
        simpa using this.symm
      subst hm
      have hp' :
          ({ m with info := some info, available := true } :
            PandocManager).getExecutablePath env = some path := hp
      unfold PandocManager.validate
      simp only [hp', hv]

/-- Model of `discover_pandoc_sources` (manager.rs:638-661): one Managed
manager, plus one System manager per search path that exists and is
executable, each manager then validated in place. -/
def discoverPandocSources (env : ManagerEnv) : List PandocManager :=
  (PandocManager.new .Managed ::
    (env.searchPaths.filter (fun p => env.pathExists p && env.isExecutable p)).map
      (fun p => PandocManager.new (.System p))).map
    (fun m => (m.validate env).1)

/-- Loop of `get_best_pandoc_manager` (manager.rs:712-717): re-validate each
discovered manager in order, returning the first success. -/
def getBestGo (env : ManagerEnv) : List PandocManager → Option PandocManager
  | [] => none
  | m :: rest =>
    match m.validate env with
    | (m', Except.ok ()) => some m'
    | (_, Except.error _) => getBestGo env rest

/-- Model of `get_best_pandoc_manager` (manager.rs:709-719). -/
def getBestPandocManager (env : ManagerEnv) : Option PandocManager :=
  getBestGo env (discoverPandocSources env)

/-- Environment of the path-level resolver (`pandoc.rs`): the outcome of
`utils::validate_pandoc_executable` for each path (existence plus a
successful `--version` probe), the managed executable path resolved via
`get_managed_pandoc_path`, and the ordered search paths of
`utils::get_search_paths`. -/
structure ResolveEnv where
  validate : String → Bool
  managedPath : Option String
  searchPaths : List String

/-- Loop of `find_all_pandoc_paths` (pandoc.rs:87-94). -/
def findAllGo (env : ResolveEnv) : List String → List String → List String
  | acc, [] => acc
  | acc, path :: rest =>
    if env.validate path && !acc.contains path then
      findAllGo env (acc ++ [path]) rest
    else
      findAllGo env acc rest

/-- Model of `find_all_pandoc_paths` (pandoc.rs:83-97): the search paths that
validate, in order, with duplicates dropped. -/
def findAllPandocPaths (env : ResolveEnv) : List String :=
  findAllGo env [] env.searchPaths

/-- Error message of `find_pandoc_with_priority` (pandoc.rs:391). -/
def noPandocMsg : String :=
  "Pandoc not found. Please check your installation or specify a custom path in settings."

/-- Model of `find_pandoc_with_priority` (pandoc.rs:377-396): the managed
pandoc wins when it resolves and validates; otherwise the first detected
system path; otherwise an error. -/
def findPandocWithPriority (env : ResolveEnv) : Except String String :=
  match env.managedPath with
  | some managed =>
    if env.validate managed then Except.ok managed
    else
      match findAllPandocPaths env with
      | [] => Except.error noPandocMsg
      | p :: _ => Except.ok p
  | none =>
    match findAllPandocPaths env with
    | [] => Except.error noPandocMsg
    | p :: _ => Except.ok p

/-- Pandoc command selection of `convert_with_pandoc` (pandoc.rs:410-415): a
supplied custom path is used directly, otherwise the unified priority logic
runs. -/
def resolvePandocCmd (customPandocPath : Option String) (env : ResolveEnv) :
    Except String String :=
  match customPandocPath with
  | some custom => Except.ok custom
  | none => findPandocWithPriority env

theorem findAllGo_acc_prefix (env : ResolveEnv) :
    ∀ (paths acc : List String), ∃ t, findAllGo env acc paths = acc ++ t := by
  intro paths
  induction paths with
  | nil => exact fun acc => ⟨[], by simp [findAllGo]⟩
  | cons q rest ih =>
    intro acc
    unfold findAllGo
    split_ifs with hq
    · obtain ⟨t, ht⟩ := ih (acc ++ [q])
      exact ⟨q :: t, by simpa using ht⟩
    · exact ih acc

theorem findAllGo_filter_nil (env : ResolveEnv) :
    ∀ (paths acc : List String), paths.filter env.validate = [] →
      findAllGo env acc paths = acc := by
  intro paths
  induction paths with
  | nil => intro acc _; rfl
  | cons q rest ih =>
    intro acc h
    rcases hq : env.validate q with _ | _
    · rw [List.filter_cons_of_neg (by simp [hq])] at h
      unfold findAllGo
      rw [if_neg (by simp [hq])]
      exact ih acc h
    · rw [List.filter_cons_of_pos (by simp [hq])] at h
      cases h

theorem findAllGo_filter_head (env : ResolveEnv) :
    ∀ (paths acc : List String) (p : String) (rest : List String),
      paths.filter env.validate = p :: rest → p ∉ acc →
      ∃ t, findAllGo env acc paths = acc ++ p :: t := by
  intro paths
  induction paths with
  | nil => intro acc p rest h _; cases h
  | cons q qs ih =>
    intro acc p rest h hp
    rcases hq : env.validate q with _ | _
    · rw [List.filter_cons_of_neg (by simp [hq])] at h
      unfold findAllGo
      rw [if_neg (by simp [hq])]
      exact ih acc p rest h hp
    · rw [List.filter_cons_of_pos (by simp [hq])] at h
      obtain ⟨rfl, -⟩ : q = p ∧ qs.filter env.validate = rest := by
        constructor
        · exact (List.cons.injEq _ _ _ _ ▸ h).1
        · exact (List.cons.injEq _ _ _ _ ▸ h).2
      unfold findAllGo
      rw [if_pos (by simp [hq, hp])]
      obtain ⟨t, ht⟩ := findAllGo_acc_prefix env qs (acc ++ [q])
      exact ⟨t, by simpa using ht⟩

theorem findAllPandocPaths_nil {env : ResolveEnv}
    (h : env.searchPaths.filter env.validate = []) :
    findAllPandocPaths env = [] :=
  findAllGo_filter_nil env env.searchPaths [] h

theorem findAllPandocPaths_head {env : ResolveEnv} {p : String}
    {rest : List String} (h : env.searchPaths.filter env.validate = p :: rest) :
    ∃ t, findAllPandocPaths env = p :: t := by
  obtain ⟨t, ht⟩ :=
    findAllGo_filter_head env env.searchPaths [] p rest h (by simp)
  exact ⟨t, by simpa using ht⟩

/-- C1: resolution priority is deterministic and total.  A supplied custom
path always wins (in particular when it validates, as the claim states —
convert_with_pandoc uses it without even validating).  Without a custom path,
a managed pandoc that resolves and validates wins over every system path.
Otherwise the system search paths are scanned in their fixed order and the
first one that validates is returned, or the not-found error when none does.
At the manager level, a successfully validating Managed manager is what
`get_best_pandoc_manager` returns. -/
theorem c1_resolution_priority :
    ∀ (env : ResolveEnv) (customPath : String),
      (env.validate customPath = true →
        resolvePandocCmd (some customPath) env = Except.ok customPath) ∧
      (∀ managed, env.managedPath = some managed → env.validate managed = true →
        resolvePandocCmd none env = Except.ok managed) ∧
      ((env.managedPath.map env.validate).getD false = false →
        (env.searchPaths.filter env.validate = [] →
          resolvePandocCmd none env = Except.error noPandocMsg) ∧
        (∀ p rest, env.searchPaths.filter env.validate = p :: rest →
          resolvePandocCmd none env = Except.ok p)) ∧
      (∀ (menv : ManagerEnv) (best : PandocManager),
        (PandocManager.new .Managed).validate menv = (best, Except.ok ()) →
        getBestPandocManager menv = some best) := by
  intro env customPath
  refine ⟨fun _ => rfl, ?_, ?_, ?_⟩
  · intro managed hm hv
    unfold resolvePandocCmd findPandocWithPriority
    simp [hm, hv]
  · intro hmv
    constructor
    · intro hnil
      have hfa := findAllPandocPaths_nil hnil
      unfold resolvePandocCmd findPandocWithPriority
      rcases hm : env.managedPath with _ | managed
      · simp [hm, hfa]
      · rw [hm] at hmv
        simp at hmv
        simp [hm, hfa, hmv]
    · intro p rest hhead
      obtain ⟨t, ht⟩ := findAllPandocPaths_head hhead
      unfold resolvePandocCmd findPandocWithPriority
      rcases hm : env.managedPath with _ | managed
      · simp [hm, ht]
      · rw [hm] at hmv
        simp at hmv
        simp [hm, ht, hmv]
  · intro menv best h
    unfold getBestPandocManager discoverPandocSources
    simp only [List.map_cons]
    rw [h]
    unfold getBestGo
    simp only
    rw [PandocManager.validate_ok_fixpoint h]

/-- Concrete resolver environment for the C1 witness: only the custom path
validates. -/
def c1EnvCustom : ResolveEnv where
  validate := fun p => p == "/custom/pandoc"
  managedPath := none
  searchPaths := []

/-- Concrete resolver environment for the C1 witness: managed and one system
path both validate. -/
def c1EnvManaged : ResolveEnv where
  validate := fun p => p == "/managed/pandoc" || p == "/usr/bin/pandoc"
  managedPath := some "/managed/pandoc"
  searchPaths := ["/usr/bin/pandoc"]

/-- Concrete resolver environment for the C1 witness: managed does not
validate and the second system path is the first valid one. -/
def c1EnvSystem : ResolveEnv where
  validate := fun p => p == "/usr/bin/pandoc"
  managedPath := some "/managed/pandoc"
  searchPaths := ["/opt/none/pandoc", "/usr/bin/pandoc"]

/-- Concrete manager environment for the C1 witness: every probe succeeds. -/
def c1ManagerEnv : ManagerEnv where
  managedPandocPath := some "/managed/pandoc"
  pathExists := fun _ => true
  isExecutable := fun _ => true
  runVersionProbe := fun _ => Except.ok { success := true, stdoutUtf8 := some "pandoc 3.6" }
  supportedFormats := fun _ => Except.ok (["markdown"], ["html"])
  searchPaths := []

/-- Witness for C1 at concrete environments: custom wins, managed beats the
system path, the first valid system path wins when managed fails, and the
manager-level best pick is the validated Managed manager. -/
theorem c1_resolution_priority_witness :
    resolvePandocCmd (some "/custom/pandoc") c1EnvCustom =
      Except.ok "/custom/pandoc" ∧
    resolvePandocCmd none c1EnvManaged = Except.ok "/managed/pandoc" ∧
    resolvePandocCmd none c1EnvSystem = Except.ok "/usr/bin/pandoc" ∧
    getBestPandocManager c1ManagerEnv = some
      { source := .Managed
        info := some
          { version := "3.6"
            path := "/managed/pandoc"
            is_working := true
            supported_input_formats := ["markdown"]
            supported_output_formats := ["html"]
            detected_paths := []
            search_paths := [] }
        available := true } :=
  ⟨(c1_resolution_priority c1EnvCustom "/custom/pandoc").1 (by decide),
   (c1_resolution_priority c1EnvManaged "/custom/pandoc").2.1
     "/managed/pandoc" rfl (by decide),
   ((c1_resolution_priority c1EnvSystem "/custom/pandoc").2.2.1
     (by decide)).2 "/usr/bin/pandoc" [] (by decide),
   (c1_resolution_priority c1EnvCustom "/custom/pandoc").2.2.2
     c1ManagerEnv _ rfl⟩

/-! ### Claim C2: mirrored download with fallback -/

/-- Success test on `Except`, modelling `Result::is_ok`. -/
def isOkE {ε α : Type} : Except ε α → Bool
  | .ok _ => true
  | .error _ => false

/-- HTTP response model: the status code plus the body-read outcome
(`response.bytes()` may fail mid-transfer). -/
structure HttpResp where
  status : Nat
  bytes : Except String (List Nat)

/-- Effects used by `download_file` (manager.rs:521-562): the HTTP GET outcome
per URL, and filesystem outcomes keyed by the destination path. -/
structure DlEnv where
  http : String → Except String HttpResp
  createParentDir : String → Except String Unit
  createFile : String → Except String Unit
  writeAll : String → List Nat → Except String Unit
  flush : String → Except String Unit

/-- Rust `StatusCode::is_success`: a 2xx status. -/
def isSuccessStatus (status : Nat) : Bool := 200 ≤ status && status < 300

/-- Model of `download_file` (manager.rs:521-562). -/
def downloadFile (env : DlEnv) (url destPath : String) : Except String String :=
  match env.http url with
  | .error e => .error ("Failed to start download: " ++ e)
  | .ok resp =>
    if !isSuccessStatus resp.status then
      .error ("Download failed with status: " ++ toString resp.status)
    else
      match env.createParentDir destPath with
      | .error e => .error ("Failed to create directory: " ++ e)
      | .ok () =>
        match env.createFile destPath with
        | .error e => .error ("Failed to create file: " ++ e)
        | .ok () =>
          match resp.bytes with
          | .error e => .error ("Failed to read response bytes: " ++ e)
          | .ok bs =>
            match env.writeAll destPath bs with
            | .error e => .error ("Failed to write file: " ++ e)
            | .ok () =>
              match env.flush destPath with
              | .error e => .error ("Failed to flush file: " ++ e)
              | .ok () => .ok destPath

/-- Model of `construct_mirror_url` (manager.rs:324-332). -/
def constructMirrorUrl (mirror originalUrl : String) : String :=
  if mirror = "" then originalUrl else mirror ++ originalUrl

/-- Model of `DOWNLOAD_MIRRORS` (manager.rs:14-18). -/
def DOWNLOAD_MIRRORS : List String :=
  ["https://hub.gitmirror.com/", "https://gh.ddlc.top/", ""]

/-- Mirror loop of `download_pandoc_internal` (manager.rs:829-850), identical
in `download_typst_internal` (manager.rs:917-938): try each mirror in order,
return the first success, swallow individual failures, and aggregate them into
one error after the loop. -/
def tryMirrors (env : DlEnv) (originalUrl destPath : String) :
    List String → Except String String
  | [] => .error "All download mirrors failed"
  | mirror :: rest =>
    match downloadFile env (constructMirrorUrl mirror originalUrl) destPath with
    | .ok path => .ok path
    | .error _ => tryMirrors env originalUrl destPath rest

/-- The mirrors-enabled vs direct split of `download_pandoc_internal`
(manager.rs:829-853). -/
def downloadWithMirrors (env : DlEnv) (useMirrors : Bool)
    (originalUrl destPath : String) : Except String String :=
  if useMirrors then tryMirrors env originalUrl destPath DOWNLOAD_MIRRORS
  else downloadFile env originalUrl destPath

theorem downloadFile_ok_dest {env : DlEnv} {url destPath v : String}
    (h : downloadFile env url destPath = Except.ok v) : v = destPath := by
  unfold downloadFile at h
  rcases hh : env.http url with e | resp <;> simp only [hh] at h
  · cases h
  · rcases hs : isSuccessStatus resp.status with _ | _ <;> simp only [hs] at h
    · simp at h
    · rcases h1 : env.createParentDir destPath with e | u <;> simp only [h1] at h
      · simp at h
      · rcases h2 : env.createFile destPath with e | u <;> simp only [h2] at h
        · simp at h
        · rcases h3 : resp.bytes with e | bs <;> simp only [h3] at h
          · simp at h
          · rcases h4 : env.writeAll destPath bs with e | u <;> simp only [h4] at h
            · simp at h
            · rcases h5 : env.flush destPath with e | u <;> simp only [h5] at h
              · simp at h
              · simp at h
                exact h.symm

theorem tryMirrors_eq_find (env : DlEnv) (originalUrl destPath : String) :
    ∀ mirrors : List String,
      tryMirrors env originalUrl destPath mirrors =
        match mirrors.find?
            (fun m =>
              isOkE (downloadFile env (constructMirrorUrl m originalUrl) destPath)) with
        | some m => downloadFile env (constructMirrorUrl m originalUrl) destPath
        | none => Except.error "All download mirrors failed" := by
  intro mirrors
  induction mirrors with
  | nil => rfl
  | cons m rest ih =>
    unfold tryMirrors
    rcases hd : downloadFile env (constructMirrorUrl m originalUrl) destPath
        with e | p <;> simp only [hd]
    · rw [List.find?_cons_of_neg _ (by simp [isOkE, hd])]
      exact ih
    · rw [List.find?_cons_of_pos _ (by simp [isOkE, hd])]
      simp [hd]

/-- C2: mirrors are tried strictly in list order; the first mirror whose HTTP
response is 2xx and whose filesystem steps all succeed wins and yields the
destination path; per-mirror failures are swallowed (never propagated to the
caller); and the single aggregate error `"All download mirrors failed"` is
returned if and only if every mirror in the list failed.  With mirrors
enabled, the download runs this loop over the fixed mirror list. -/
theorem c2_mirror_fallback :
    ∀ (env : DlEnv) (mirrors : List String) (originalUrl destPath : String),
      (∀ url v, downloadFile env url destPath = Except.ok v → v = destPath) ∧
      (tryMirrors env originalUrl destPath mirrors =
        match mirrors.find?
            (fun m =>
              isOkE (downloadFile env (constructMirrorUrl m originalUrl) destPath)) with
        | some m => downloadFile env (constructMirrorUrl m originalUrl) destPath
        | none => Except.error "All download mirrors failed") ∧
      (tryMirrors env originalUrl destPath mirrors =
          Except.error "All download mirrors failed" ↔
        ∀ m ∈ mirrors,
          isOkE (downloadFile env (constructMirrorUrl m originalUrl) destPath) =
            false) ∧
      (downloadWithMirrors env true originalUrl destPath =
        tryMirrors env originalUrl destPath DOWNLOAD_MIRRORS) := by
  intro env mirrors originalUrl destPath
  refine ⟨fun _ _ h => downloadFile_ok_dest h,
    tryMirrors_eq_find env originalUrl destPath mirrors, ?_, rfl⟩
  rw [tryMirrors_eq_find env originalUrl destPath mirrors]
  rcases hf : mirrors.find?
      (fun m =>
        isOkE (downloadFile env (constructMirrorUrl m originalUrl) destPath))
      with _ | m <;> simp only [hf]
  · constructor
    · intro _ x hx
      have hnone := List.find?_eq_none.mp hf x hx
      simpa using hnone
    · intro _
      trivial
  · have hpred := List.find?_some hf
    have hmem := List.mem_of_find?_eq_some hf
    constructor
    · intro hcontra
      rcases hok : downloadFile env (constructMirrorUrl m originalUrl) destPath
          with e | p
      · rw [hok] at hpred
        simp [isOkE] at hpred
      · rw [hok] at hcontra
        cases hcontra
    · intro hall
      have hm := hall m hmem
      rw [hm] at hpred
      cases hpred

/-- Download environment for the C2 witness: only the second mirror's URL
responds, everything filesystem-side succeeds. -/
def c2EnvSecondMirror : DlEnv where
  http := fun url =>
    if url = "https://gh.ddlc.top/https://github.com/a.tgz" then
      Except.ok { status := 200, bytes := Except.ok [31, 139] }
    else Except.error "connection reset"
  createParentDir := fun _ => Except.ok ()
  createFile := fun _ => Except.ok ()
  writeAll := fun _ _ => Except.ok ()
  flush := fun _ => Except.ok ()

/-- Download environment for the C2 witness: every HTTP request fails. -/
def c2EnvAllFail : DlEnv where
  http := fun _ => Except.error "connection reset"
  createParentDir := fun _ => Except.ok ()
  createFile := fun _ => Except.ok ()
  writeAll := fun _ _ => Except.ok ()
  flush := fun _ => Except.ok ()

/-- Witness for C2 at concrete environments: a successful download returns
the destination path, the second mirror wins when the first fails, and the
aggregate error appears exactly when all mirrors fail. -/
theorem c2_mirror_fallback_witness :
    "dl/pandoc.tgz" = "dl/pandoc.tgz" ∧
    tryMirrors c2EnvSecondMirror "https://github.com/a.tgz" "dl/pandoc.tgz"
      DOWNLOAD_MIRRORS = Except.ok "dl/pandoc.tgz" ∧
    tryMirrors c2EnvAllFail "https://github.com/a.tgz" "dl/pandoc.tgz"
      DOWNLOAD_MIRRORS = Except.error "All download mirrors failed" :=
  ⟨(c2_mirror_fallback c2EnvSecondMirror DOWNLOAD_MIRRORS
      "https://github.com/a.tgz" "dl/pandoc.tgz").1
      "https://gh.ddlc.top/https://github.com/a.tgz" "dl/pandoc.tgz" rfl ▸ rfl,
   ((c2_mirror_fallback c2EnvSecondMirror DOWNLOAD_MIRRORS
      "https://github.com/a.tgz" "dl/pandoc.tgz").2.1).trans rfl,
   ((c2_mirror_fallback c2EnvAllFail DOWNLOAD_MIRRORS
      "https://github.com/a.tgz" "dl/pandoc.tgz").2.2.1).mpr (by decide)⟩

/-! ### Claim C9: release parsing never fails on field shape -/

/-- Model of `serde_json::Value`.  Numbers are never consumed by the modelled
code, so they are carried as an opaque integer. -/
inductive Json where
  | null
  | bool (b : Bool)
  | num (n : Int)
  | str (s : String)
  | arr (items : List Json)
  | obj (fields : List (String × Json))

/-- Model of `serde_json` string indexing on a shared reference
(`data["key"]`): field lookup on objects, `Value::Null` for a missing key or
for a non-object value. -/
def Json.index (j : Json) (key : String) : Json :=
  match j with
  | .obj fields =>
    match fields.find? (fun f => f.1 == key) with
    | some f => f.2
    | none => .null
  | _ => .null

/-- Model of `Value::as_str`. -/
def Json.asStr : Json → Option String
  | .str s => some s
  | _ => none

/-- Model of `Value::is_null`. -/
def Json.isNull : Json → Bool
  | .null => true
  | _ => false

/-- Model of `GithubAsset` (types.rs:40-46). -/
structure GithubAsset where
  name : String
  download_url : String
  size : Nat
  content_type : String
deriving DecidableEq, Repr

/-- Model of `GithubRelease` (types.rs:31-38). -/
structure GithubRelease where
  tag_name : String
  name : String
  body : String
  published_at : String
  assets : List GithubAsset
deriving DecidableEq, Repr

/-- Model of `generate_github_assets` (manager.rs:433-478): six synthetic
assets derived from the tag, each with the size-0 sentinel. -/
def generateGithubAssets (tag : String) : List GithubAsset :=
  [ { name := "pandoc-" ++ tag ++ "-windows-x86_64.msi"
      download_url := "https://github.com/jgm/pandoc/releases/download/" ++ tag ++
        "/pandoc-" ++ tag ++ "-windows-x86_64.msi"
      size := 0
      content_type := "application/x-msi" },
    { name := "pandoc-" ++ tag ++ "-windows-x86_64.zip"
      download_url := "https://github.com/jgm/pandoc/releases/download/" ++ tag ++
        "/pandoc-" ++ tag ++ "-windows-x86_64.zip"
      size := 0
      content_type := "application/zip" },
    { name := "pandoc-" ++ tag ++ "-macOS.pkg"
      download_url := "https://github.com/jgm/pandoc/releases/download/" ++ tag ++
        "/pandoc-" ++ tag ++ "-macOS.pkg"
      size := 0
      content_type := "application/x-apple-diskimage" },
    { name := "pandoc-" ++ tag ++ "-macOS.zip"
      download_url := "https://github.com/jgm/pandoc/releases/download/" ++ tag ++
        "/pandoc-" ++ tag ++ "-macOS.zip"
      size := 0
      content_type := "application/zip" },
    { name := "pandoc-" ++ tag ++ "-linux-amd64.tar.gz"
      download_url := "https://github.com/jgm/pandoc/releases/download/" ++ tag ++
        "/pandoc-" ++ tag ++ "-linux-amd64.tar.gz"
      size := 0
      content_type := "application/gzip" },
    { name := "pandoc-" ++ tag ++ ".tar.gz"
      download_url := "https://github.com/jgm/pandoc/releases/download/" ++ tag ++
        "/pandoc-" ++ tag ++ ".tar.gz"
      size := 0
      content_type := "application/gzip" } ]

/-- Model of `parse_ungh_release` (manager.rs:411-430). -/
def parseUnghRelease (data : Json) : Except String GithubRelease :=
  .ok { tag_name := ((data.index "tag").asStr).getD ""
        name := ((data.index "name").asStr).getD (((data.index "tag").asStr).getD "")
        body := ((data.index "markdown").asStr).getD ""
        published_at := ((data.index "publishedAt").asStr).getD ""
        assets := generateGithubAssets (((data.index "tag").asStr).getD "") }

/-- HTTP response at the registry layer: status plus the body-read outcome. -/
structure HttpTextResp where
  status : Nat
  text : Except String String

/-- Post-transport core of `get_latest_pandoc_release` (manager.rs:336-368):
`resp` is the outcome of the `reqwest::get`, `parseJson` stands for
`serde_json::from_str`. -/
def getLatestReleaseCore (resp : Except String HttpTextResp)
    (parseJson : String → Except String Json) : Except String GithubRelease :=
  match resp with
  | .error e => .error ("Failed to fetch release info: " ++ e)
  | .ok r =>
    if !isSuccessStatus r.status then
      .error ("API request failed with status: " ++ toString r.status)
    else
      match r.text with
      | .error e => .error ("Failed to read response: " ++ e)
      | .ok responseText =>
        match parseJson responseText with
        | .error e => .error ("Failed to parse JSON: " ++ e)
        | .ok api =>
          if (api.index "release").isNull then
            .error "No release data found in response"
          else parseUnghRelease (api.index "release")

/-- C9: `parse_ungh_release` returns `Ok` for every JSON value, defaulting the
tag, notes and timestamp to empty strings, the name to the tag, and
synthesizing the asset list from the (possibly empty) tag; consequently a
release fetch succeeds exactly when transport, status, body read and JSON
parse succeed and the `"release"` wrapper field is non-null — an individual
field's shape never causes an error. -/
theorem c9_parse_release_total :
    (∀ data : Json,
      parseUnghRelease data =
        Except.ok
          { tag_name := ((data.index "tag").asStr).getD ""
            name := ((data.index "name").asStr).getD
              (((data.index "tag").asStr).getD "")
            body := ((data.index "markdown").asStr).getD ""
            published_at := ((data.index "publishedAt").asStr).getD ""
            assets := generateGithubAssets (((data.index "tag").asStr).getD "") }) ∧
    (∀ (resp : Except String HttpTextResp)
        (parseJson : String → Except String Json),
      isOkE (getLatestReleaseCore resp parseJson) = true ↔
        ∃ (r : HttpTextResp) (responseText : String) (api : Json),
          resp = Except.ok r ∧ isSuccessStatus r.status = true ∧
          r.text = Except.ok responseText ∧
          parseJson responseText = Except.ok api ∧
          (api.index "release").isNull = false) := by
  refine ⟨fun _ => rfl, ?_⟩
  intro resp parseJson
  rcases resp with e | r
  · simp [getLatestReleaseCore, isOkE]
  · rcases hs : isSuccessStatus r.status with _ | _
    · simp [getLatestReleaseCore, isOkE, hs]
    · rcases ht : r.text with e | responseText
      · simp [getLatestReleaseCore, isOkE, hs, ht]
      · rcases hp : parseJson responseText with e | api
        · simp [getLatestReleaseCore, isOkE, hs, ht, hp]
        · rcases hn : (api.index "release").isNull with _ | _
          · simp [getLatestReleaseCore, isOkE, hs, ht, hp, hn, parseUnghRelease]
          · simp [getLatestReleaseCore, isOkE, hs, ht, hp, hn]

/-! ### Claim C8: zip extraction is idempotent

The filesystem is modelled as an association list from absolute paths
(component lists) to nodes; `extract_zip` (manager.rs:574-616) is modelled as
the in-order application of the archive's entries to that filesystem.  Archive
reading itself (`ZipArchive::new`, `by_index`) is abstracted: the entry list
is the input.  Path-traversal names (`..` components) are not modelled. -/

/-- A filesystem node: a regular file with contents and permission bits, or a
directory with permission bits. -/
inductive FsNode where
  | file (data : List Nat) (mode : Nat)
  | dir (mode : Nat)
deriving DecidableEq, Repr

/-- Filesystem model: association list from paths to nodes. -/
def Fs : Type := List (List String × FsNode)

/-- Look up the node at a path. -/
def Fs.get (fs : Fs) (p : List String) : Option FsNode :=
  (List.find? (fun e => e.1 == p) fs).map (fun e => e.2)

/-- Write the node at a path. -/
def Fs.set (fs : Fs) (p : List String) (n : FsNode) : Fs :=
  (p, n) :: List.filter (fun e => !(e.1 == p)) fs

/-- Node kind, the only information the success conditions depend on. -/
inductive NKind where
  | absent
  | dirK
  | fileK
deriving DecidableEq, Repr

/-- Kind of an optional node. -/
def kindOf : Option FsNode → NKind
  | Option.none => .absent
  | some (.dir _) => .dirK
  | some (.file _ _) => .fileK

/-- Permission bits of a fresh file in the model. -/
def defaultFileMode : Nat := 420

/-- Permission bits of a fresh directory in the model. -/
def defaultDirMode : Nat := 493

/-- The non-empty prefixes of a path, shortest first. -/
def prefixesOf (p : List String) : List (List String) :=
  (List.range p.length).map (fun i => p.take (i + 1))

/-- The owner-write permission bit (0o200) of a Unix mode. -/
def ownerWrite (m : Nat) : Bool := m / 128 % 2 = 1

/-- Whether a new entry may be created inside the parent directory of `p`:
the parent is either outside the modelled tree (`p` has a single component,
its parent is the pre-existing region above the extraction root) or a
directory whose mode carries the owner-write bit.  An absent or regular-file
parent fails, collapsing the NotFound/NotADirectory/PermissionDenied errors
of entry creation into one failure. -/
def parentOk (fs : Fs) (p : List String) : Bool :=
  if p.dropLast = [] then true
  else
    match fs.get p.dropLast with
    | some (.dir m) => ownerWrite m
    | _ => false

/-- Worker of `create_dir_all`: walk the given prefix list, creating missing
directories when their parent is writable; an existing regular file in the
chain or a non-writable parent fails the call. -/
def mkdirList (fs : Fs) : List (List String) → Option Fs
  | [] => some fs
  | q :: qs =>
    match fs.get q with
    | some (.file _ _) => none
    | some (.dir _) => mkdirList fs qs
    | none =>
      match parentOk fs q with
      | true => mkdirList (fs.set q (.dir defaultDirMode)) qs
      | false => none

/-- Model of `std::fs::create_dir_all`. -/
def mkdirAll (fs : Fs) (p : List String) : Option Fs :=
  mkdirList fs (prefixesOf p)

/-- Model of `File::create` plus `io::copy`: fails on a directory; truncates
an existing file keeping its permission bits, but only when its mode has the
owner-write bit (otherwise `File::create` fails with PermissionDenied);
creates a fresh file when the parent directory is writable. -/
def createFileNode (fs : Fs) (p : List String) (data : List Nat) : Option Fs :=
  match fs.get p with
  | some (.dir _) => none
  | some (.file _ m) =>
    match ownerWrite m with
    | true => some (fs.set p (.file data m))
    | false => none
  | none =>
    match parentOk fs p with
    | true => some (fs.set p (.file data defaultFileMode))
    | false => none

/-- Model of `fs::set_permissions(...).ok()`: set permission bits when the
path exists; errors (absent path) are ignored at the call site
(manager.rs:609). -/
def setModeNode (fs : Fs) (p : List String) (mode : Nat) : Fs :=
  match fs.get p with
  | some (.file d _) => fs.set p (.file d mode)
  | some (.dir _) => fs.set p (.dir mode)
  | none => fs

/-- One zip entry as surfaced by `zip::read::ZipFile`: the `/`-separated name
components, whether the name ends in `/` (directory entry), the entry bytes,
and the optional Unix mode. -/
structure ZipEntry where
  parts : List String
  isDir : Bool
  data : List Nat
  mode : Option Nat
deriving DecidableEq, Repr

/-- One iteration of the entry loop of `extract_zip` (manager.rs:581-613):
directory entries run `create_dir_all` on the out-path; file entries run
`create_dir_all` on the parent, then create and fill the file; in both cases
a present Unix mode is then applied to the out-path with errors ignored. -/
def applyZipEntry (extractDir : List String) (fs : Fs) (e : ZipEntry) :
    Option Fs :=
  if e.isDir then
    match mkdirAll fs (extractDir ++ e.parts) with
    | none => none
    | some fs1 =>
      some (match e.mode with
            | some m => setModeNode fs1 (extractDir ++ e.parts) m
            | none => fs1)
  else
    match mkdirAll fs ((extractDir ++ e.parts).dropLast) with
    | none => none
    | some fs1 =>
      match createFileNode fs1 (extractDir ++ e.parts) e.data with
      | none => none
      | some fs2 =>
        some (match e.mode with
              | some m => setModeNode fs2 (extractDir ++ e.parts) m
              | none => fs2)

/-- Model of `extract_zip` (manager.rs:574-616): apply the entries in index
order; `none` models the propagated extraction error. -/
def extractZipFs (extractDir : List String) (fs : Fs) :
    List ZipEntry → Option Fs
  | [] => some fs
  | e :: es =>
    match applyZipEntry extractDir fs e with
    | none => none
    | some fs' => extractZipFs extractDir fs' es

/-! Pointwise semantics: every filesystem operation of the loop acts on one
path at a time, so a run is characterized by the per-path operation lists. -/

/-- A per-path primitive operation. -/
inductive POp where
  | mk
  | cr (data : List Nat)
  | md (mode : Nat)
deriving DecidableEq, Repr

/-- Action of one primitive on the value at its path.  The kind-mismatch
cases (`mk` on a file, `cr` on a directory) are unreachable in successful
runs and act as the identity. -/
def stepOp : POp → Option FsNode → Option FsNode
  | .mk, Option.none => some (.dir defaultDirMode)
  | .mk, some (.dir m) => some (.dir m)
  | .mk, some (.file d m) => some (.file d m)
  | .cr d, Option.none => some (.file d defaultFileMode)
  | .cr d, some (.file _ m) => some (.file d m)
  | .cr _, some (.dir m) => some (.dir m)
  | .md mo, some (.file d _) => some (.file d mo)
  | .md mo, some (.dir _) => some (.dir mo)
  | .md _, Option.none => Option.none

/-- Fold a per-path operation list over a value. -/
def foldOps (ops : List POp) (v : Option FsNode) : Option FsNode :=
  ops.foldl (fun v op => stepOp op v) v

/-- The operations an entry performs at one particular path. -/
def entryOpsAt (extractDir : List String) (e : ZipEntry) (p : List String) :
    List POp :=
  if e.isDir then
    (if p ∈ prefixesOf (extractDir ++ e.parts) then [POp.mk] else []) ++
    (if p = extractDir ++ e.parts then
      (match e.mode with | some m => [POp.md m] | none => []) else [])
  else
    (if p ∈ prefixesOf ((extractDir ++ e.parts).dropLast) then [POp.mk] else []) ++
    (if p = extractDir ++ e.parts then
      POp.cr e.data ::
        (match e.mode with | some m => [POp.md m] | none => []) else [])

/-- The operations a whole entry list performs at one path. -/
def allOpsAt (extractDir : List String) (es : List ZipEntry)
    (p : List String) : List POp :=
  (es.map (fun e => entryOpsAt extractDir e p)).flatten

theorem Fs.get_set (fs : Fs) (p : List String) (n : FsNode) (q : List String) :
    (fs.set p n).get q = if q = p then some n else fs.get q := by
  unfold Fs.get Fs.set
  by_cases hq : q = p
  · subst hq
    simp [List.find?_cons]
  · rw [List.find?_cons_of_neg _ (by simp [Ne.symm hq])]
    simp only [if_neg hq]
    induction fs with
    | nil => rfl
    | cons hd tl ih =>
      by_cases hh : hd.1 = q
      · rw [List.filter_cons_of_pos (by simp [hh, hq])]
        rw [List.find?_cons_of_pos _ (by simp [hh]),
          List.find?_cons_of_pos _ (by simp [hh])]
      · by_cases hp : hd.1 = p
        · rw [List.filter_cons_of_neg (by simp [hp])]
          rw [List.find?_cons_of_neg _ (by simp [hh])]
          exact ih
        · rw [List.filter_cons_of_pos (by simp [hp])]
          rw [List.find?_cons_of_neg _ (by simp [hh]),
            List.find?_cons_of_neg _ (by simp [hh])]
          exact ih

theorem kindOf_dirK_elim {v : Option FsNode} (h : kindOf v = NKind.dirK) :
    ∃ m, v = some (.dir m) := by
  rcases v with _ | n
  · simp [kindOf] at h
  · rcases n with ⟨d, m⟩ | m
    · simp [kindOf] at h
    · exact ⟨m, rfl⟩

theorem kindOf_fileK_elim {v : Option FsNode} (h : kindOf v = NKind.fileK) :
    ∃ d m, v = some (.file d m) := by
  rcases v with _ | n
  · simp [kindOf] at h
  · rcases n with ⟨d, m⟩ | m
    · exact ⟨d, m, rfl⟩
    · simp [kindOf] at h

theorem mkdirList_not_file :
    ∀ (qs : List (List String)) (fs fs' : Fs),
      mkdirList fs qs = some fs' →
      ∀ q ∈ qs, kindOf (fs.get q) ≠ NKind.fileK := by
  intro qs
  induction qs with
  | nil =>
    intro fs fs' _ q hq
    cases hq
  | cons q qs ih =>
    intro fs fs' h x hx
    unfold mkdirList at h
    rcases hq : fs.get q with _ | n
    · simp only [hq] at h
      rcases hpw : parentOk fs q with _ | _
      · simp only [hpw] at h
        cases h
      · simp only [hpw] at h
        rcases List.mem_cons.mp hx with rfl | hx'
        · simp [hq, kindOf]
        · have hgx := ih _ _ h x hx'
          rw [Fs.get_set] at hgx
          by_cases hxq : x = q
          · subst hxq
            simp [hq, kindOf]
          · rw [if_neg hxq] at hgx
            exact hgx
    · rcases n with ⟨d, m⟩ | m
      · simp only [hq] at h
        cases h
      · simp only [hq] at h
        rcases List.mem_cons.mp hx with rfl | hx'
        · simp [hq, kindOf]
        · exact ih _ _ h x hx'

theorem mkdirList_of_dirs :
    ∀ (qs : List (List String)) (fs : Fs),
      (∀ q ∈ qs, kindOf (fs.get q) = NKind.dirK) →
      mkdirList fs qs = some fs := by
  intro qs
  induction qs with
  | nil =>
    intro fs _
    rfl
  | cons q qs ih =>
    intro fs h
    obtain ⟨m, hm⟩ := kindOf_dirK_elim (h q (List.mem_cons_self _ _))
    unfold mkdirList
    simp only [hm]
    exact ih fs (fun x hx => h x (List.mem_cons_of_mem _ hx))

theorem mkdirList_get :
    ∀ (qs : List (List String)) (fs fs' : Fs),
      mkdirList fs qs = some fs' →
      ∀ p, fs'.get p =
        if p ∈ qs then stepOp .mk (fs.get p) else fs.get p := by
  intro qs
  induction qs with
  | nil =>
    intro fs fs' h p
    cases h
    simp
  | cons q qs ih =>
    intro fs fs' h p
    unfold mkdirList at h
    rcases hq : fs.get q with _ | n
    · simp only [hq] at h
      rcases hpw : parentOk fs q with _ | _
      · simp only [hpw] at h
        cases h
      · simp only [hpw] at h
        have hg := ih _ _ h p
        rw [Fs.get_set] at hg
        by_cases hpq : p = q
        · subst hpq
          rw [if_pos rfl] at hg
          rw [if_pos (List.mem_cons_self _ _), hq]
          by_cases hpqs : p ∈ qs
          · rw [if_pos hpqs] at hg
            simpa [stepOp] using hg
          · rw [if_neg hpqs] at hg
            simpa [stepOp] using hg
        · rw [if_neg hpq] at hg
          by_cases hpqs : p ∈ qs
          · rw [if_pos hpqs] at hg
            rw [if_pos (List.mem_cons_of_mem _ hpqs)]
            exact hg
          · rw [if_neg hpqs] at hg
            rw [if_neg (by simp [hpq, hpqs])]
            exact hg
    · rcases n with ⟨d, m⟩ | m
      · simp only [hq] at h
        cases h
      · simp only [hq] at h
        have hg := ih _ _ h p
        by_cases hpq : p = q
        · subst hpq
          rw [if_pos (List.mem_cons_self _ _), hq]
          by_cases hpqs : p ∈ qs
          · rw [if_pos hpqs, hq] at hg
            simpa [stepOp] using hg
          · rw [if_neg hpqs, hq] at hg
            simpa [stepOp] using hg
        · by_cases hpqs : p ∈ qs
          · rw [if_pos hpqs] at hg
            rw [if_pos (List.mem_cons_of_mem _ hpqs)]
            exact hg
          · rw [if_neg hpqs] at hg
            rw [if_neg (by simp [hpq, hpqs])]
            exact hg

theorem createFileNode_not_dir {fs fs' : Fs} {p : List String} {d : List Nat}
    (h : createFileNode fs p d = some fs') :
    kindOf (fs.get p) ≠ NKind.dirK := by
  unfold createFileNode at h
  rcases hp : fs.get p with _ | n
  · simp [hp, kindOf]
  · rcases n with ⟨dd, m⟩ | m
    · simp [hp, kindOf]
    · simp only [hp] at h
      cases h

theorem createFileNode_writable_mode {fs fs' : Fs} {p : List String}
    {d : List Nat} (h : createFileNode fs p d = some fs') :
    ∃ m, fs'.get p = some (.file d m) ∧ ownerWrite m = true := by
  unfold createFileNode at h
  rcases hp : fs.get p with _ | n
  · simp only [hp] at h
    rcases hpw : parentOk fs p with _ | _
    · simp only [hpw] at h
      cases h
    · simp only [hpw] at h
      cases h
      refine ⟨defaultFileMode, ?_, by decide⟩
      rw [Fs.get_set, if_pos rfl]
  · rcases n with ⟨dd, m⟩ | m
    · simp only [hp] at h
      rcases hw : ownerWrite m with _ | _
      · simp only [hw] at h
        cases h
      · simp only [hw] at h
        cases h
        refine ⟨m, ?_, hw⟩
        rw [Fs.get_set, if_pos rfl]
    · simp only [hp] at h
      cases h

theorem createFileNode_of_writable {fs : Fs} {p : List String} {d0 : List Nat}
    {m : Nat} (hv : fs.get p = some (.file d0 m)) (hw : ownerWrite m = true)
    (d : List Nat) :
    createFileNode fs p d = some (fs.set p (.file d m)) := by
  unfold createFileNode
  simp only [hv, hw]

theorem createFileNode_get {fs fs' : Fs} {p : List String} {d : List Nat}
    (h : createFileNode fs p d = some fs') :
    ∀ q, fs'.get q = if q = p then stepOp (.cr d) (fs.get q) else fs.get q := by
  intro q
  unfold createFileNode at h
  rcases hp : fs.get p with _ | n
  · simp only [hp] at h
    rcases hpw : parentOk fs p with _ | _
    · simp only [hpw] at h
      cases h
    · simp only [hpw] at h
      cases h
      rw [Fs.get_set]
      by_cases hqp : q = p
      · subst hqp
        rw [if_pos rfl, if_pos rfl, hp]
        simp [stepOp]
      · rw [if_neg hqp, if_neg hqp]
  · rcases n with ⟨dd, m⟩ | m
    · simp only [hp] at h
      rcases hw : ownerWrite m with _ | _
      · simp only [hw] at h
        cases h
      · simp only [hw] at h
        cases h
        rw [Fs.get_set]
        by_cases hqp : q = p
        · subst hqp
          rw [if_pos rfl, if_pos rfl, hp]
          simp [stepOp]
        · rw [if_neg hqp, if_neg hqp]
    · simp only [hp] at h
      cases h

theorem setModeNode_get (fs : Fs) (p : List String) (m : Nat) :
    ∀ q, (setModeNode fs p m).get q =
      if q = p then stepOp (.md m) (fs.get q) else fs.get q := by
  intro q
  unfold setModeNode
  rcases hp : fs.get p with _ | n
  · simp only [hp]
    by_cases hqp : q = p
    · subst hqp
      rw [if_pos rfl, hp]
      simp [stepOp]
    · rw [if_neg hqp]
  · rcases n with ⟨dd, mm⟩ | mm
    · simp only [hp, Fs.get_set]
      by_cases hqp : q = p
      · subst hqp
        rw [if_pos rfl, if_pos rfl, hp]
        simp [stepOp]
      · rw [if_neg hqp, if_neg hqp]
    · simp only [hp, Fs.get_set]
      by_cases hqp : q = p
      · subst hqp
        rw [if_pos rfl, if_pos rfl, hp]
        simp [stepOp]
      · rw [if_neg hqp, if_neg hqp]

theorem not_mem_prefixesOf_dropLast (p : List String) :
    p ∉ prefixesOf p.dropLast := by
  intro h
  unfold prefixesOf at h
  rcases List.mem_map.mp h with ⟨i, hi, hp⟩
  simp only [List.mem_range, List.length_dropLast] at hi
  have hlen := congrArg List.length hp
  simp only [List.length_take, List.length_dropLast] at hlen
  omega

theorem self_mem_prefixesOf {p : List String} (h : p ≠ []) :
    p ∈ prefixesOf p := by
  unfold prefixesOf
  refine List.mem_map.mpr ⟨p.length - 1, ?_, ?_⟩
  · have := List.length_pos.mpr h
    simp [List.mem_range]
    omega
  · have hlen : p.length - 1 + 1 = p.length := by
      have := List.length_pos.mpr h
      omega
    rw [hlen, List.take_length]

theorem mkdirAll_get {fs fs' : Fs} {p : List String}
    (h : mkdirAll fs p = some fs') :
    ∀ q, fs'.get q =
      if q ∈ prefixesOf p then stepOp .mk (fs.get q) else fs.get q :=
  mkdirList_get _ _ _ h

theorem mkdirAll_not_file {fs fs' : Fs} {p : List String}
    (h : mkdirAll fs p = some fs') :
    ∀ q ∈ prefixesOf p, kindOf (fs.get q) ≠ NKind.fileK :=
  mkdirList_not_file _ _ _ h

theorem mkdirAll_of_dirs {fs : Fs} {p : List String}
    (h : ∀ q ∈ prefixesOf p, kindOf (fs.get q) = NKind.dirK) :
    mkdirAll fs p = some fs :=
  mkdirList_of_dirs _ _ h

/-- Kind-level conditions a successful entry of the zip loop implies about
the filesystem it ran against (success additionally needs the permission
checks of `mkdirList` and `createFileNode` to pass). -/
def okEntry (extractDir : List String) (e : ZipEntry) (fs : Fs) : Prop :=
  if e.isDir then
    ∀ q ∈ prefixesOf (extractDir ++ e.parts), kindOf (fs.get q) ≠ NKind.fileK
  else
    (∀ q ∈ prefixesOf ((extractDir ++ e.parts).dropLast),
      kindOf (fs.get q) ≠ NKind.fileK) ∧
    kindOf (fs.get (extractDir ++ e.parts)) ≠ NKind.dirK

theorem applyZipEntry_ok_of_some {extractDir : List String} {e : ZipEntry}
    {fs g : Fs} (h : applyZipEntry extractDir fs e = some g) :
    okEntry extractDir e fs := by
  unfold applyZipEntry at h
  unfold okEntry
  rcases hd : e.isDir with _ | _
  · rw [hd] at h
    simp only [Bool.false_eq_true, if_false] at h ⊢
    rcases hmk : mkdirAll fs ((extractDir ++ e.parts).dropLast) with _ | fs1 <;>
      simp only [hmk] at h
    · cases h
    · rcases hcf : createFileNode fs1 (extractDir ++ e.parts) e.data with _ | fs2 <;>
        simp only [hcf] at h
      · cases h
      · have hsame : fs1.get (extractDir ++ e.parts) =
            fs.get (extractDir ++ e.parts) := by
          rw [mkdirAll_get hmk]
          rw [if_neg (not_mem_prefixesOf_dropLast _)]
        refine ⟨mkdirAll_not_file hmk, ?_⟩
        have hnd := createFileNode_not_dir hcf
        rw [hsame] at hnd
        exact hnd
  · rw [hd] at h
    simp only [eq_self_iff_true, if_true] at h ⊢
    rcases hmk : mkdirAll fs (extractDir ++ e.parts) with _ | fs1 <;>
      simp only [hmk] at h
    · cases h
    · exact mkdirAll_not_file hmk

theorem applyZipEntry_get {extractDir : List String} {e : ZipEntry}
    {fs fs' : Fs} (h : applyZipEntry extractDir fs e = some fs') :
    ∀ p, fs'.get p = foldOps (entryOpsAt extractDir e p) (fs.get p) := by
  intro p
  unfold applyZipEntry at h
  unfold entryOpsAt
  rcases hd : e.isDir with _ | _
  · rw [hd] at h
    simp only [Bool.false_eq_true, if_false] at h ⊢
    rcases hmk : mkdirAll fs ((extractDir ++ e.parts).dropLast) with _ | fs1 <;>
      simp only [hmk] at h
    · cases h
    · rcases hcf : createFileNode fs1 (extractDir ++ e.parts) e.data with _ | fs2 <;>
        simp only [hcf] at h
      · cases h
      · have hg1 := mkdirAll_get hmk p
        have hg2 := createFileNode_get hcf p
        rcases hm : e.mode with _ | m <;> simp only [hm] at h <;> cases h
        · by_cases hpo : p = extractDir ++ e.parts
          · have hnp : p ∉ prefixesOf ((extractDir ++ e.parts).dropLast) := by
              rw [hpo]
              exact not_mem_prefixesOf_dropLast _
            rw [hg2, if_pos hpo, hg1, if_neg hnp]
            simp [foldOps, if_pos hpo, if_neg hnp]
          · by_cases hpp : p ∈ prefixesOf ((extractDir ++ e.parts).dropLast)
            · rw [hg2, if_neg hpo, hg1, if_pos hpp]
              simp [foldOps, if_neg hpo, if_pos hpp]
            · rw [hg2, if_neg hpo, hg1, if_neg hpp]
              simp [foldOps, if_neg hpo, if_neg hpp]
        · rw [setModeNode_get fs2 (extractDir ++ e.parts) m p]
          by_cases hpo : p = extractDir ++ e.parts
          · have hnp : p ∉ prefixesOf ((extractDir ++ e.parts).dropLast) := by
              rw [hpo]
              exact not_mem_prefixesOf_dropLast _
            rw [if_pos hpo, hg2, if_pos hpo, hg1, if_neg hnp]
            simp [foldOps, if_pos hpo, if_neg hnp]
          · rw [if_neg hpo, hg2, if_neg hpo]
            by_cases hpp : p ∈ prefixesOf ((extractDir ++ e.parts).dropLast)
            · rw [hg1, if_pos hpp]
              simp [foldOps, if_neg hpo, if_pos hpp]
            · rw [hg1, if_neg hpp]
              simp [foldOps, if_neg hpo, if_neg hpp]
  · rw [hd] at h
    simp only [eq_self_iff_true, if_true] at h ⊢
    rcases hmk : mkdirAll fs (extractDir ++ e.parts) with _ | fs1 <;>
      simp only [hmk] at h
    · cases h
    · have hg1 := mkdirAll_get hmk p
      rcases hm : e.mode with _ | m <;> simp only [hm] at h <;> cases h
      · by_cases hpp : p ∈ prefixesOf (extractDir ++ e.parts)
        · rw [hg1, if_pos hpp]
          simp [foldOps, if_pos hpp]
        · rw [hg1, if_neg hpp]
          simp [foldOps, if_neg hpp]
      · rw [setModeNode_get fs1 (extractDir ++ e.parts) m p]
        by_cases hpo : p = extractDir ++ e.parts
        · by_cases hpp : p ∈ prefixesOf (extractDir ++ e.parts)
          · rw [if_pos hpo, hg1, if_pos hpp]
            simp [foldOps, if_pos hpo, if_pos hpp]
          · rw [if_pos hpo, hg1, if_neg hpp]
            simp [foldOps, if_pos hpo, if_neg hpp]
        · rw [if_neg hpo]
          by_cases hpp : p ∈ prefixesOf (extractDir ++ e.parts)
          · rw [hg1, if_pos hpp]
            simp [foldOps, if_neg hpo, if_pos hpp]
          · rw [hg1, if_neg hpp]
            simp [foldOps, if_neg hpo, if_neg hpp]

theorem allOpsAt_cons (extractDir : List String) (e : ZipEntry)
    (es : List ZipEntry) (p : List String) :
    allOpsAt extractDir (e :: es) p =
      entryOpsAt extractDir e p ++ allOpsAt extractDir es p := by
  simp [allOpsAt]

theorem foldOps_append (l1 l2 : List POp) (v : Option FsNode) :
    foldOps (l1 ++ l2) v = foldOps l2 (foldOps l1 v) := by
  simp [foldOps, List.foldl_append]

theorem extractZipFs_get :
    ∀ (es : List ZipEntry) (extractDir : List String) (fs fs' : Fs),
      extractZipFs extractDir fs es = some fs' →
      ∀ p, fs'.get p = foldOps (allOpsAt extractDir es p) (fs.get p) := by
  intro es
  induction es with
  | nil =>
    intro dir fs fs' h p
    cases h
    simp [allOpsAt, foldOps]
  | cons e es ih =>
    intro dir fs fs' h p
    unfold extractZipFs at h
    rcases ha : applyZipEntry dir fs e with _ | fs1 <;> simp only [ha] at h
    · cases h
    · have h1 := applyZipEntry_get ha p
      have h2 := ih dir fs1 fs' h p
      rw [h2, h1, allOpsAt_cons, foldOps_append]

theorem stepOp_kind (op : POp) (v : Option FsNode)
    (h : kindOf v ≠ NKind.absent) : kindOf (stepOp op v) = kindOf v := by
  rcases v with _ | n
  · simp [kindOf] at h
  · rcases n with ⟨d, m⟩ | m <;> rcases op with _ | d2 | m2 <;>
      simp [stepOp, kindOf]

theorem foldOps_kind (ops : List POp) :
    ∀ v, kindOf v ≠ NKind.absent → kindOf (foldOps ops v) = kindOf v := by
  induction ops with
  | nil =>
    intro v _
    rfl
  | cons op ops ih =>
    intro v h
    have h1 := stepOp_kind op v h
    have hfold : foldOps (op :: ops) v = foldOps ops (stepOp op v) := rfl
    rw [hfold, ih (stepOp op v) (by rw [h1]; exact h), h1]

theorem stepOp_mk_kind (v : Option FsNode) (h : kindOf v ≠ NKind.fileK) :
    kindOf (stepOp .mk v) = NKind.dirK := by
  rcases v with _ | n
  · simp [stepOp, kindOf]
  · rcases n with ⟨d, m⟩ | m
    · simp [kindOf] at h
    · simp [stepOp, kindOf]

theorem stepOp_cr_kind (d : List Nat) (v : Option FsNode)
    (h : kindOf v ≠ NKind.dirK) :
    kindOf (stepOp (.cr d) v) = NKind.fileK := by
  rcases v with _ | n
  · simp [stepOp, kindOf]
  · rcases n with ⟨dd, m⟩ | m
    · simp [stepOp, kindOf]
    · simp [kindOf] at h

theorem stepOp_md_kind (m : Nat) (v : Option FsNode) :
    kindOf (stepOp (.md m) v) = kindOf v := by
  rcases v with _ | n
  · simp [stepOp, kindOf]
  · rcases n with ⟨dd, mm⟩ | mm <;> simp [stepOp, kindOf]

theorem foldOps_nil (v : Option FsNode) : foldOps [] v = v := rfl

theorem foldOps_cons (op : POp) (ops : List POp) (v : Option FsNode) :
    foldOps (op :: ops) v = foldOps ops (stepOp op v) := rfl

theorem foldOps_mdList_kind (mo : Option Nat) (v : Option FsNode) :
    kindOf (foldOps
      (match mo with | some m => [POp.md m] | none => []) v) = kindOf v := by
  rcases mo with _ | m
  · rfl
  · rw [foldOps_cons, foldOps_nil]
    exact stepOp_md_kind m v

theorem extractZipFs_kind_preserved {es : List ZipEntry} {dir : List String}
    {fs fs' : Fs} (h : extractZipFs dir fs es = some fs') (p : List String)
    (hk : kindOf (fs.get p) ≠ NKind.absent) :
    kindOf (fs'.get p) = kindOf (fs.get p) := by
  rw [extractZipFs_get es dir fs fs' h p]
  exact foldOps_kind _ _ hk

/-- The modes an entry carries are owner-writable, stated for file entries
only: this is what lets a re-run's `File::create` truncate the file the
first run installed. -/
def entryModesWritable (e : ZipEntry) : Prop :=
  e.isDir = false → (e.mode.map ownerWrite).getD true = true

instance (e : ZipEntry) : Decidable (entryModesWritable e) :=
  decidable_of_iff
    (e.isDir = false → (e.mode.map ownerWrite).getD true = true) Iff.rfl

/-- Pointwise permission invariant: a regular file's mode keeps its
owner-write bit; directories and absent paths are unconstrained. -/
def wOkV : Option FsNode → Prop
  | some (.file _ m) => ownerWrite m = true
  | _ => True

theorem stepOp_wOk_mk {v : Option FsNode} (h : wOkV v) :
    wOkV (stepOp .mk v) := by
  rcases v with _ | n
  · simp [stepOp, wOkV]
  · rcases n with ⟨d, m⟩ | m
    · simpa [stepOp, wOkV] using h
    · simp [stepOp, wOkV]

theorem stepOp_wOk_cr {v : Option FsNode} (d : List Nat) (h : wOkV v) :
    wOkV (stepOp (.cr d) v) := by
  rcases v with _ | n
  · show ownerWrite defaultFileMode = true
    decide
  · rcases n with ⟨dd, m⟩ | m
    · simpa [stepOp, wOkV] using h
    · simp [stepOp, wOkV]

theorem stepOp_wOk_md_of_writable {v : Option FsNode} {m : Nat}
    (h : ownerWrite m = true) : wOkV (stepOp (.md m) v) := by
  rcases v with _ | n
  · simp [stepOp, wOkV]
  · rcases n with ⟨dd, mm⟩ | mm
    · simpa [stepOp, wOkV] using h
    · simp [stepOp, wOkV]

theorem foldOps_mdList_wOk_dir (mo : Option Nat) (v : Option FsNode)
    (h : kindOf v = NKind.dirK) :
    wOkV (foldOps (match mo with | some m => [POp.md m] | none => []) v) := by
  obtain ⟨mm2, rfl⟩ := kindOf_dirK_elim h
  rcases mo with _ | mm
  · exact trivial
  · exact trivial

/-- What a successful run's final filesystem assigns to the paths one entry
touches: every created directory is a directory, and the written file is a
file whose mode kept the owner-write bit. -/
def entryKindsOk (extractDir : List String) (e : ZipEntry) (fs1 : Fs) : Prop :=
  if e.isDir then
    ∀ q ∈ prefixesOf (extractDir ++ e.parts), kindOf (fs1.get q) = NKind.dirK
  else
    (∀ q ∈ prefixesOf ((extractDir ++ e.parts).dropLast),
      kindOf (fs1.get q) = NKind.dirK) ∧
    (∃ d m, fs1.get (extractDir ++ e.parts) = some (.file d m) ∧
      ownerWrite m = true)

theorem applyZipEntry_kinds {dir : List String} {e : ZipEntry} {fs g : Fs}
    (hmw : entryModesWritable e)
    (h : applyZipEntry dir fs e = some g) : entryKindsOk dir e g := by
  have hok := applyZipEntry_ok_of_some h
  have hget := applyZipEntry_get h
  unfold entryKindsOk
  unfold okEntry at hok
  rcases hd : e.isDir with _ | _
  · rw [hd] at hok
    simp only [Bool.false_eq_true, if_false] at hok ⊢
    obtain ⟨hok1, hok2⟩ := hok
    constructor
    · intro q hq
      have hqo : q ≠ dir ++ e.parts := by
        intro hcontra
        rw [hcontra] at hq
        exact not_mem_prefixesOf_dropLast _ hq
      rw [hget q]
      unfold entryOpsAt
      rw [hd]
      simp only [Bool.false_eq_true, if_false]
      rw [if_pos hq, if_neg hqo, List.append_nil, foldOps_cons, foldOps_nil]
      exact stepOp_mk_kind _ (hok1 q hq)
    · unfold applyZipEntry at h
      rw [hd] at h
      simp only [Bool.false_eq_true, if_false] at h
      rcases hmk : mkdirAll fs ((dir ++ e.parts).dropLast) with _ | fs1 <;>
        simp only [hmk] at h
      · cases h
      · rcases hcf : createFileNode fs1 (dir ++ e.parts) e.data with _ | fs2 <;>
          simp only [hcf] at h
        · cases h
        · obtain ⟨m2, hv2, hw2⟩ := createFileNode_writable_mode hcf
          rcases hm : e.mode with _ | mm <;> simp only [hm] at h <;> cases h
          · exact ⟨e.data, m2, hv2, hw2⟩
          · have hwmm : ownerWrite mm = true := by
              have hmm2 := hmw hd
              rw [hm] at hmm2
              simpa using hmm2
            refine ⟨e.data, mm, ?_, hwmm⟩
            rw [setModeNode_get fs2 (dir ++ e.parts) mm (dir ++ e.parts),
              if_pos rfl, hv2]
            rfl
  · rw [hd] at hok
    simp only [eq_self_iff_true, if_true] at hok ⊢
    intro q hq
    rw [hget q]
    unfold entryOpsAt
    rw [hd]
    simp only [eq_self_iff_true, if_true]
    rw [if_pos hq, foldOps_append, foldOps_cons, foldOps_nil]
    have hmk := stepOp_mk_kind (fs.get q) (hok q hq)
    by_cases hqo : q = dir ++ e.parts
    · rw [if_pos hqo, foldOps_mdList_kind]
      exact hmk
    · rw [if_neg hqo, foldOps_nil]
      exact hmk

theorem writableFile_preserved_entry {dir : List String} (hdir : dir ≠ [])
    {e : ZipEntry} {fs g : Fs} {p : List String}
    (hmw : entryModesWritable e)
    (h : applyZipEntry dir fs e = some g)
    (hf : ∃ d m, fs.get p = some (.file d m) ∧ ownerWrite m = true) :
    ∃ d m, g.get p = some (.file d m) ∧ ownerWrite m = true := by
  obtain ⟨d, m, hv, hw⟩ := hf
  rw [applyZipEntry_get h p, hv]
  unfold entryOpsAt
  rcases hd : e.isDir with _ | _
  · simp only [Bool.false_eq_true, if_false]
    by_cases hpo : p = dir ++ e.parts
    · have hnp : p ∉ prefixesOf ((dir ++ e.parts).dropLast) := by
        rw [hpo]
        exact not_mem_prefixesOf_dropLast _
      rw [if_neg hnp, if_pos hpo, List.nil_append]
      rcases hm : e.mode with _ | mm
      · exact ⟨e.data, m, rfl, hw⟩
      · have hwmm : ownerWrite mm = true := by
          have hmm2 := hmw hd
          rw [hm] at hmm2
          simpa using hmm2
        exact ⟨e.data, mm, rfl, hwmm⟩
    · rw [if_neg hpo, List.append_nil]
      by_cases hpp : p ∈ prefixesOf ((dir ++ e.parts).dropLast)
      · rw [if_pos hpp]
        exact ⟨d, m, rfl, hw⟩
      · rw [if_neg hpp]
        exact ⟨d, m, rfl, hw⟩
  · simp only [eq_self_iff_true, if_true]
    by_cases hpo : p = dir ++ e.parts
    · exfalso
      have hok := applyZipEntry_ok_of_some h
      unfold okEntry at hok
      rw [hd] at hok
      simp only [eq_self_iff_true, if_true] at hok
      have hne : dir ++ e.parts ≠ [] :=
        fun hc => hdir (List.append_eq_nil.mp hc).1
      have hmem : p ∈ prefixesOf (dir ++ e.parts) := by
        rw [hpo]
        exact self_mem_prefixesOf hne
      have hkq := hok p hmem
      rw [hv] at hkq
      exact hkq rfl
    · by_cases hpp : p ∈ prefixesOf (dir ++ e.parts)
      · rw [if_pos hpp, if_neg hpo, List.append_nil]
        exact ⟨d, m, rfl, hw⟩
      · rw [if_neg hpp, if_neg hpo, List.nil_append]
        exact ⟨d, m, rfl, hw⟩

theorem writableFile_preserved_run {dir : List String} (hdir : dir ≠ []) :
    ∀ (es : List ZipEntry) (fs fs' : Fs) (p : List String),
      (∀ e ∈ es, entryModesWritable e) →
      extractZipFs dir fs es = some fs' →
      (∃ d m, fs.get p = some (.file d m) ∧ ownerWrite m = true) →
      ∃ d m, fs'.get p = some (.file d m) ∧ ownerWrite m = true := by
  intro es
  induction es with
  | nil =>
    intro fs fs' p _ h hf
    cases h
    exact hf
  | cons e0 es ih =>
    intro fs fs' p hmods h hf
    unfold extractZipFs at h
    rcases ha : applyZipEntry dir fs e0 with _ | g <;> simp only [ha] at h
    · cases h
    · exact ih g fs' p (fun e he => hmods e (List.mem_cons_of_mem _ he)) h
        (writableFile_preserved_entry hdir (hmods e0 (List.mem_cons_self _ _))
          ha hf)

theorem entryKindsOk_preserved {dir : List String} (hdir : dir ≠ [])
    {e : ZipEntry} {g fs' : Fs} {es : List ZipEntry}
    (hmods : ∀ e2 ∈ es, entryModesWritable e2)
    (hk : entryKindsOk dir e g)
    (h : extractZipFs dir g es = some fs') : entryKindsOk dir e fs' := by
  unfold entryKindsOk at hk ⊢
  rcases hd : e.isDir with _ | _
  · rw [hd] at hk
    simp only [Bool.false_eq_true, if_false] at hk ⊢
    obtain ⟨h1, h2⟩ := hk
    constructor
    · intro q hq
      rw [extractZipFs_kind_preserved h q (by rw [h1 q hq]; simp)]
      exact h1 q hq
    · exact writableFile_preserved_run hdir es g fs' _ hmods h h2
  · rw [hd] at hk
    simp only [eq_self_iff_true, if_true] at hk ⊢
    intro q hq
    rw [extractZipFs_kind_preserved h q (by rw [hk q hq]; simp)]
    exact hk q hq

theorem extractZipFs_entryKinds {dir : List String} (hdir : dir ≠ []) :
    ∀ (es : List ZipEntry) (fs fs' : Fs),
      (∀ e ∈ es, entryModesWritable e) →
      extractZipFs dir fs es = some fs' →
      ∀ e ∈ es, entryKindsOk dir e fs' := by
  intro es
  induction es with
  | nil =>
    intro fs fs' _ h e he
    cases he
  | cons e0 es ih =>
    intro fs fs' hmods h e he
    unfold extractZipFs at h
    rcases ha : applyZipEntry dir fs e0 with _ | g <;> simp only [ha] at h
    · cases h
    · rcases List.mem_cons.mp he with rfl | he'
      · exact entryKindsOk_preserved hdir
          (fun e2 he2 => hmods e2 (List.mem_cons_of_mem _ he2))
          (applyZipEntry_kinds (hmods _ (List.mem_cons_self _ _)) ha) h
      · exact ih g fs'
          (fun e2 he2 => hmods e2 (List.mem_cons_of_mem _ he2)) h e he'

theorem applyZipEntry_kind_agree {dir : List String} {e : ZipEntry}
    {fs1 hfs g : Fs} (hk : entryKindsOk dir e fs1)
    (hagree : ∀ p, kindOf (hfs.get p) = kindOf (fs1.get p))
    (hg : applyZipEntry dir hfs e = some g) :
    ∀ p, kindOf (g.get p) = kindOf (fs1.get p) := by
  intro p
  rw [applyZipEntry_get hg p]
  unfold entryOpsAt
  unfold entryKindsOk at hk
  rcases hd : e.isDir with _ | _
  · rw [hd] at hk
    simp only [Bool.false_eq_true, if_false] at hk ⊢
    obtain ⟨hk1, hk2⟩ := hk
    have hk2k : kindOf (fs1.get (dir ++ e.parts)) = NKind.fileK := by
      obtain ⟨d2, m2, hv2, -⟩ := hk2
      rw [hv2]
      rfl
    by_cases hpo : p = dir ++ e.parts
    · subst hpo
      rw [if_neg (not_mem_prefixesOf_dropLast _), if_pos rfl, List.nil_append,
        foldOps_cons, foldOps_mdList_kind]
      rw [stepOp_cr_kind _ _ (by rw [hagree _, hk2k]; simp)]
      exact hk2k.symm
    · by_cases hpp : p ∈ prefixesOf ((dir ++ e.parts).dropLast)
      · rw [if_pos hpp, if_neg hpo, List.append_nil, foldOps_cons, foldOps_nil]
        rw [stepOp_mk_kind _ (by rw [hagree p, hk1 p hpp]; simp)]
        exact (hk1 p hpp).symm
      · rw [if_neg hpp, if_neg hpo, List.nil_append, foldOps_nil]
        exact hagree p
  · rw [hd] at hk
    simp only [eq_self_iff_true, if_true] at hk ⊢
    by_cases hpp : p ∈ prefixesOf (dir ++ e.parts)
    · rw [if_pos hpp, foldOps_append, foldOps_cons, foldOps_nil]
      have hmk := stepOp_mk_kind (hfs.get p) (by rw [hagree p, hk p hpp]; simp)
      by_cases hpo : p = dir ++ e.parts
      · rw [if_pos hpo, foldOps_mdList_kind, hmk]
        exact (hk p hpp).symm
      · rw [if_neg hpo, foldOps_nil, hmk]
        exact (hk p hpp).symm
    · rw [if_neg hpp, List.nil_append]
      by_cases hpo : p = dir ++ e.parts
      · rw [if_pos hpo, foldOps_mdList_kind]
        exact hagree p
      · rw [if_neg hpo, foldOps_nil]
        exact hagree p

theorem applyZipEntry_wOk {dir : List String} (hdir : dir ≠ [])
    {e : ZipEntry} {fs1 hfs g : Fs} (hk : entryKindsOk dir e fs1)
    (hmw : entryModesWritable e)
    (hagree : ∀ p, kindOf (hfs.get p) = kindOf (fs1.get p))
    (hg : applyZipEntry dir hfs e = some g) :
    ∀ p, wOkV (hfs.get p) → wOkV (g.get p) := by
  intro p hw
  rw [applyZipEntry_get hg p]
  unfold entryOpsAt
  unfold entryKindsOk at hk
  rcases hd : e.isDir with _ | _
  · simp only [Bool.false_eq_true, if_false]
    by_cases hpo : p = dir ++ e.parts
    · have hnp : p ∉ prefixesOf ((dir ++ e.parts).dropLast) := by
        rw [hpo]
        exact not_mem_prefixesOf_dropLast _
      rw [if_neg hnp, if_pos hpo, List.nil_append, foldOps_cons]
      rcases hm : e.mode with _ | mm
      · exact stepOp_wOk_cr e.data hw
      · have hwmm : ownerWrite mm = true := by
          have hmm2 := hmw hd
          rw [hm] at hmm2
          simpa using hmm2
        exact stepOp_wOk_md_of_writable hwmm
    · rw [if_neg hpo, List.append_nil]
      by_cases hpp : p ∈ prefixesOf ((dir ++ e.parts).dropLast)
      · rw [if_pos hpp, foldOps_cons, foldOps_nil]
        exact stepOp_wOk_mk hw
      · rw [if_neg hpp, foldOps_nil]
        exact hw
  · rw [hd] at hk
    simp only [eq_self_iff_true, if_true] at hk ⊢
    by_cases hpp : p ∈ prefixesOf (dir ++ e.parts)
    · rw [if_pos hpp, foldOps_append, foldOps_cons, foldOps_nil]
      by_cases hpo : p = dir ++ e.parts
      · rw [if_pos hpo]
        have hkd : kindOf (stepOp POp.mk (hfs.get p)) = NKind.dirK :=
          stepOp_mk_kind _ (by rw [hagree p, hk p hpp]; simp)
        exact foldOps_mdList_wOk_dir e.mode _ hkd
      · rw [if_neg hpo, foldOps_nil]
        exact stepOp_wOk_mk hw
    · rw [if_neg hpp, List.nil_append]
      by_cases hpo : p = dir ++ e.parts
      · exfalso
        apply hpp
        rw [hpo]
        exact self_mem_prefixesOf
          (fun hc => hdir (List.append_eq_nil.mp hc).1)
      · rw [if_neg hpo, foldOps_nil]
        exact hw

theorem applyZipEntry_replay_succeeds {dir : List String} {e : ZipEntry}
    {fs1 hfs : Fs} (hk : entryKindsOk dir e fs1)
    (hagree : ∀ p, kindOf (hfs.get p) = kindOf (fs1.get p))
    (hwok : ∀ p, wOkV (fs1.get p) → wOkV (hfs.get p)) :
    ∃ g, applyZipEntry dir hfs e = some g := by
  unfold applyZipEntry
  unfold entryKindsOk at hk
  rcases hd : e.isDir with _ | _
  · rw [hd] at hk
    simp only [Bool.false_eq_true, if_false] at hk ⊢
    obtain ⟨hk1, hk2⟩ := hk
    have hmk : mkdirAll hfs ((dir ++ e.parts).dropLast) = some hfs :=
      mkdirAll_of_dirs (fun q hq => by rw [hagree q]; exact hk1 q hq)
    obtain ⟨d2, m2, hv2, hw2⟩ := hk2
    have hkf : kindOf (hfs.get (dir ++ e.parts)) = NKind.fileK := by
      rw [hagree _, hv2]
      rfl
    obtain ⟨d3, m3, hv3⟩ := kindOf_fileK_elim hkf
    have hw3 : ownerWrite m3 = true := by
      have hwv := hwok (dir ++ e.parts) (by rw [hv2]; exact hw2)
      rw [hv3] at hwv
      exact hwv
    have hcf := createFileNode_of_writable hv3 hw3 e.data
    simp only [hmk, hcf]
    exact ⟨_, rfl⟩
  · rw [hd] at hk
    simp only [eq_self_iff_true, if_true] at hk ⊢
    have hmk : mkdirAll hfs (dir ++ e.parts) = some hfs :=
      mkdirAll_of_dirs (fun q hq => by rw [hagree q]; exact hk q hq)
    simp only [hmk]
    exact ⟨_, rfl⟩

theorem extractZipFs_replay {dir : List String} (hdir : dir ≠ []) :
    ∀ (es : List ZipEntry) (fs1 hfs : Fs),
      (∀ e ∈ es, entryKindsOk dir e fs1) →
      (∀ e ∈ es, entryModesWritable e) →
      (∀ p, kindOf (hfs.get p) = kindOf (fs1.get p)) →
      (∀ p, wOkV (fs1.get p) → wOkV (hfs.get p)) →
      ∃ hfs', extractZipFs dir hfs es = some hfs' ∧
        ∀ p, kindOf (hfs'.get p) = kindOf (fs1.get p) := by
  intro es
  induction es with
  | nil =>
    intro fs1 hfs _ _ hagree _
    exact ⟨hfs, rfl, hagree⟩
  | cons e0 es ih =>
    intro fs1 hfs hks hmods hagree hwok
    obtain ⟨g, hg⟩ := applyZipEntry_replay_succeeds
      (hks e0 (List.mem_cons_self _ _)) hagree hwok
    have hagree' := applyZipEntry_kind_agree (hks e0 (List.mem_cons_self _ _))
      hagree hg
    have hwok' : ∀ p, wOkV (fs1.get p) → wOkV (g.get p) := fun p hp =>
      applyZipEntry_wOk hdir (hks e0 (List.mem_cons_self _ _))
        (hmods e0 (List.mem_cons_self _ _)) hagree hg p (hwok p hp)
    obtain ⟨hfs', hrun, hfin⟩ := ih fs1 g
      (fun e he => hks e (List.mem_cons_of_mem _ he))
      (fun e he => hmods e (List.mem_cons_of_mem _ he)) hagree' hwok'
    refine ⟨hfs', ?_, hfin⟩
    unfold extractZipFs
    rw [hg]
    exact hrun

/-- The mode set by the last `md` of an operation list, if any. -/
def lastMd : List POp → Option Nat
  | [] => none
  | .md m :: t => some ((lastMd t).getD m)
  | _ :: t => lastMd t

/-- The contents written by the last `cr` of an operation list, if any. -/
def lastCr : List POp → Option (List Nat)
  | [] => none
  | .cr d :: t => some ((lastCr t).getD d)
  | _ :: t => lastCr t

theorem foldOps_dir (ops : List POp) :
    ∀ y, foldOps ops (some (.dir y)) = some (.dir ((lastMd ops).getD y)) := by
  induction ops with
  | nil =>
    intro y
    rfl
  | cons op t ih =>
    intro y
    rcases op with _ | d | m
    · rw [foldOps_cons, show stepOp .mk (some (.dir y)) = some (.dir y) from rfl,
        ih y]
      rfl
    · rw [foldOps_cons,
        show stepOp (.cr d) (some (.dir y)) = some (.dir y) from rfl, ih y]
      rfl
    · rw [foldOps_cons,
        show stepOp (.md m) (some (.dir y)) = some (.dir m) from rfl, ih m]
      simp [lastMd]

theorem foldOps_file (ops : List POp) :
    ∀ c y, foldOps ops (some (.file c y)) =
      some (.file ((lastCr ops).getD c) ((lastMd ops).getD y)) := by
  induction ops with
  | nil =>
    intro c y
    rfl
  | cons op t ih =>
    intro c y
    rcases op with _ | d | m
    · rw [foldOps_cons,
        show stepOp .mk (some (.file c y)) = some (.file c y) from rfl, ih c y]
      rfl
    · rw [foldOps_cons,
        show stepOp (.cr d) (some (.file c y)) = some (.file d y) from rfl,
        ih d y]
      simp [lastCr, lastMd]
    · rw [foldOps_cons,
        show stepOp (.md m) (some (.file c y)) = some (.file c m) from rfl,
        ih c m]
      simp [lastCr, lastMd]

/-- The first operation of a per-path list is never a bare mode-set: every
`md` an entry emits is preceded by the `mk` or `cr` of the same entry. -/
def headNotMd : List POp → Prop
  | .md _ :: _ => False
  | _ => True

theorem headNotMd_append {l1 l2 : List POp} (h1 : headNotMd l1)
    (h2 : headNotMd l2) : headNotMd (l1 ++ l2) := by
  rcases l1 with _ | ⟨op, t⟩
  · simpa using h2
  · rcases op with _ | d | m
    · trivial
    · trivial
    · exact h1.elim

theorem entryOpsAt_headNotMd (dir : List String) (hdir : dir ≠ [])
    (e : ZipEntry) (p : List String) : headNotMd (entryOpsAt dir e p) := by
  unfold entryOpsAt
  rcases hd : e.isDir with _ | _
  · simp only [Bool.false_eq_true, if_false]
    by_cases hpp : p ∈ prefixesOf ((dir ++ e.parts).dropLast)
    · rw [if_pos hpp]
      by_cases hpo : p = dir ++ e.parts
      · rw [if_pos hpo]
        trivial
      · rw [if_neg hpo]
        trivial
    · rw [if_neg hpp]
      by_cases hpo : p = dir ++ e.parts
      · rw [if_pos hpo]
        trivial
      · rw [if_neg hpo]
        trivial
  · simp only [eq_self_iff_true, if_true]
    by_cases hpp : p ∈ prefixesOf (dir ++ e.parts)
    · rw [if_pos hpp]
      trivial
    · rw [if_neg hpp]
      by_cases hpo : p = dir ++ e.parts
      · exfalso
        apply hpp
        rw [hpo]
        exact self_mem_prefixesOf
          (fun hc => hdir (List.append_eq_nil.mp hc).1)
      · rw [if_neg hpo]
        trivial

theorem allOpsAt_headNotMd (dir : List String) (hdir : dir ≠ [])
    (es : List ZipEntry) (p : List String) : headNotMd (allOpsAt dir es p) := by
  induction es with
  | nil => exact trivial
  | cons e es ih =>
    rw [allOpsAt_cons]
    exact headNotMd_append (entryOpsAt_headNotMd dir hdir e p) ih

theorem foldOps_idem (L : List POp) (v : Option FsNode) (hhd : headNotMd L) :
    foldOps L (foldOps L v) = foldOps L v := by
  rcases v with _ | n
  · rcases L with _ | ⟨op, t⟩
    · rfl
    · rcases op with _ | d | m
      · have hv1 : foldOps (POp.mk :: t) (Option.none : Option FsNode) =
            some (.dir ((lastMd t).getD defaultDirMode)) := by
          rw [foldOps_cons,
            show stepOp .mk (Option.none : Option FsNode) =
              some (.dir defaultDirMode) from rfl, foldOps_dir]
        rw [hv1, foldOps_cons,
          show stepOp .mk (some (.dir ((lastMd t).getD defaultDirMode))) =
            some (.dir ((lastMd t).getD defaultDirMode)) from rfl, foldOps_dir]
        rcases hm : lastMd t with _ | m2 <;> simp [hm]
      · have hv1 : foldOps (POp.cr d :: t) (Option.none : Option FsNode) =
            some (.file ((lastCr t).getD d) ((lastMd t).getD defaultFileMode)) := by
          rw [foldOps_cons,
            show stepOp (.cr d) (Option.none : Option FsNode) =
              some (.file d defaultFileMode) from rfl, foldOps_file]
        rw [hv1, foldOps_cons,
          show stepOp (.cr d)
              (some (.file ((lastCr t).getD d) ((lastMd t).getD defaultFileMode))) =
            some (.file d ((lastMd t).getD defaultFileMode)) from rfl,
          foldOps_file]
        rcases hm : lastMd t with _ | m2 <;> rcases hc : lastCr t with _ | c2 <;>
          simp [hm, hc]
      · exact hhd.elim
  · rcases n with ⟨c, y⟩ | y
    · rw [foldOps_file, foldOps_file]
      rcases hm : lastMd L with _ | m2 <;> rcases hc : lastCr L with _ | c2 <;>
        simp [hm, hc]
    · rw [foldOps_dir, foldOps_dir]
      rcases hm : lastMd L with _ | m2 <;> simp [hm]

/-- Concrete archive refuting unconditional idempotence: a single regular
file whose Unix mode 0o444 (292) lacks the owner-write bit. -/
def c8ReadOnlyEntries : List ZipEntry :=
  [ { parts := ["f"], isDir := false, data := [1, 2], mode := some 292 } ]

/-- The filesystem produced by the first extraction of the read-only
archive. -/
def c8ReadOnlyFs1 : Fs := (extractZipFs ["out"] [] c8ReadOnlyEntries).getD []

/-- Concrete archive for the C8 witness: one directory entry and one file
entry with an executable, owner-writable mode (0o755). -/
def c8Entries : List ZipEntry :=
  [ { parts := ["d"], isDir := true, data := [], mode := some 493 },
    { parts := ["d", "pandoc"], isDir := false, data := [77, 90],
      mode := some 493 } ]

/-- The filesystem produced by the first extraction of the C8 witness. -/
def c8Fs1 : Fs := (extractZipFs ["out"] [] c8Entries).getD []

end PandocDesktop
